import Mathlib

/-!
Verification development for `fitgirl_comment_exporter.py`.

The Python program is shallowly embedded: JSON values read from the remote
API are modelled by `JVal`, Python's dynamic coercions (`int(...)`,
`str(... or "")`, `.get`, subscripting, iteration, truthiness) by explicit
total functions into `Except PyErr`, and every function of the source that
the claims touch is translated definition-by-definition.  Network traffic
is supplied by an oracle (`Api`): each call site receives the response the
oracle assigns to it, `.error` standing for a `requests.RequestException`
(raised by `session.get` or `raise_for_status`).  `time.sleep` durations
are recorded in exact milliseconds (the source's `0.25 * 2^k` seconds is
exactly `250 * 2^k` ms).  Python's stable Timsort is modelled by
`List.insertionSort`, which is stable for the non-strict key comparisons
used here, hence extensionally identical on every input.
-/

/-- A JSON value as Python would hold it after `r.json()`.  Floats do not
occur in the comment payloads the program consumes and are not modelled. -/
inductive JVal where
  | null : JVal
  | bool : Bool → JVal
  | int : Int → JVal
  | str : String → JVal
  | list : List JVal → JVal
  | dict : List (String × JVal) → JVal

/-- The Python exceptions the embedded code can raise.  `transport` stands
for any `requests.RequestException` (incl. `HTTPError` from
`raise_for_status`); the others are `KeyError`, `ValueError`,
`AttributeError` and `TypeError`. -/
inductive PyErr where
  | transport : PyErr
  | keyErr : PyErr
  | valueErr : PyErr
  | attrErr : PyErr
  | typeErr : PyErr
deriving DecidableEq

/-- Python truthiness of a value. -/
def truthy : JVal → Bool
  | .null => false
  | .bool b => b
  | .int n => n != 0
  | .str s => s != ""
  | .list xs => !xs.isEmpty
  | .dict kvs => !kvs.isEmpty

/-- `x or d` for the uses in the source (`value or default`). -/
def pyOr (v d : JVal) : JVal := if truthy v then v else d

/-- `obj.get(k)` — `AttributeError` unless `obj` is a dict; missing key
gives `None`. -/
def pyGetAttr : JVal → String → Except PyErr JVal
  | .dict kvs, k => .ok ((kvs.lookup k).getD .null)
  | _, _ => .error .attrErr

/-- `obj.get(k, default)` — `AttributeError` unless `obj` is a dict. -/
def pyGet : JVal → String → JVal → Except PyErr JVal
  | .dict kvs, k, d => .ok ((kvs.lookup k).getD d)
  | _, _, _ => .error .attrErr

/-- `obj[k]` for a string key — `KeyError` when absent, `TypeError` when
`obj` is not a dict. -/
def pySub : JVal → String → Except PyErr JVal
  | .dict kvs, k =>
    match kvs.lookup k with
    | some v => .ok v
    | none => .error .keyErr
  | _, _ => .error .typeErr

/-- Iterating a value (`for x in v`): lists yield elements, strings yield
one-character strings, dicts yield their keys; other values raise
`TypeError`. -/
def pyIter : JVal → Except PyErr (List JVal)
  | .list xs => .ok xs
  | .str s => .ok (s.data.map (fun c => JVal.str (String.mk [c])))
  | .dict kvs => .ok (kvs.map (fun kv => JVal.str kv.1))
  | _ => .error .typeErr

def isPySpace (c : Char) : Bool :=
  c = ' ' || c = '\t' || c = '\n' || c = '\r' || c = Char.ofNat 11 || c = Char.ofNat 12

def digitVal (c : Char) : Nat := c.toNat - '0'.toNat

def digitsToNat (ds : List Char) : Nat :=
  ds.foldl (fun acc c => acc * 10 + digitVal c) 0

/-- `int(s)` on a string: strip whitespace, optional sign, decimal digits
(Python's underscore grouping is not modelled; no input here uses it). -/
def parseIntStr (s : String) : Except PyErr Int :=
  let cs := (((s.data.dropWhile isPySpace).reverse.dropWhile isPySpace).reverse)
  match cs with
  | '-' :: ds =>
    if !ds.isEmpty && ds.all Char.isDigit then .ok (-(digitsToNat ds : Int))
    else .error .valueErr
  | '+' :: ds =>
    if !ds.isEmpty && ds.all Char.isDigit then .ok (digitsToNat ds : Int)
    else .error .valueErr
  | ds =>
    if !ds.isEmpty && ds.all Char.isDigit then .ok (digitsToNat ds : Int)
    else .error .valueErr

/-- `int(v)`: ints and bools convert, numeric strings parse
(`ValueError` otherwise), everything else is a `TypeError`. -/
def pyInt : JVal → Except PyErr Int
  | .int n => .ok n
  | .bool b => .ok (if b then 1 else 0)
  | .str s => parseIntStr s
  | _ => .error .typeErr

/-- `str(v)`.  The container cases approximate Python's `repr`-based
rendering (no claim evaluates them); scalars are exact. -/
def pyStr : JVal → String
  | .null => "None"
  | .bool true => "True"
  | .bool false => "False"
  | .int n => toString n
  | .str s => s
  | .list _ => "[...]"
  | .dict _ => "\x7b...\x7d"

-- ---------------------------------------------------------------- regexes

/-- Does `p` occur as a prefix of `s` (on char lists)? -/
def listStartsWith : List Char → List Char → Bool
  | _, [] => true
  | [], _ :: _ => false
  | c :: cs, p :: ps => c = p && listStartsWith cs ps

/-- Does `s` end with `p`? -/
def listEndsWith (s p : List Char) : Bool :=
  if p.length ≤ s.length then decide (s.drop (s.length - p.length) = p) else false

/-- One attempted match of `COM_ANS_RE` = `data-id="(\d+)"` at the head of
the input: the literal, then a maximal nonempty digit run, then `"`. -/
def matchComAns (cs : List Char) : Option Int :=
  let lit := "data-id=\"".data
  if listStartsWith cs lit then
    let rest := cs.drop lit.length
    let ds := rest.takeWhile Char.isDigit
    if !ds.isEmpty && listStartsWith (rest.drop ds.length) ['"'] then
      some (digitsToNat ds : Int)
    else none
  else none

/-- `COM_ANS_RE.search`: leftmost match of `data-id="(\d+)"`, returning the
captured digits as an integer. -/
def comAnsSearch : List Char → Option Int
  | [] => none
  | c :: cs =>
    match matchComAns (c :: cs) with
    | some n => some n
    | none => comAnsSearch cs

/-- One attempted match of `HREF_RE` = `href="([^"]+)"` at the head of the
input; on success returns the capture and the remaining input after the
closing quote. -/
def tryHref (cs : List Char) : Option (String × List Char) :=
  let lit := "href=\"".data
  if listStartsWith cs lit then
    let rest := cs.drop lit.length
    let run := rest.takeWhile (fun c => c ≠ '"')
    if !run.isEmpty && listStartsWith (rest.drop run.length) ['"'] then
      some (String.mk run, rest.drop (run.length + 1))
    else none
  else none

/-- `HREF_RE.findall`: leftmost non-overlapping matches.  The fuel equals
the input length; every step consumes at least one character, so it never
runs out before the scan ends. -/
def hrefFindallAux : Nat → List Char → List String → List String
  | 0, _, acc => acc
  | _ + 1, [], acc => acc
  | fuel + 1, c :: rest, acc =>
    match tryHref (c :: rest) with
    | some (u, rest2) => hrefFindallAux fuel rest2 (acc ++ [u])
    | none => hrefFindallAux fuel rest acc

def hrefFindall (s : String) : List String := hrefFindallAux s.data.length s.data []

/-- A character allowed in the body of `PLAIN_URL_RE`'s class
`[^\s<>"\']`. -/
def plainUrlChar (c : Char) : Bool :=
  !isPySpace c && c ≠ '<' && c ≠ '>' && c ≠ '"' && c ≠ Char.ofNat 39

/-- One attempted match of `PLAIN_URL_RE` = `(https?://[^\s<>"\']+)` with
`re.IGNORECASE` at the head of the input. -/
def tryPlainUrl (cs : List Char) : Option (String × List Char) :=
  if (cs.take 4).map Char.toLower = ['h', 't', 't', 'p'] then
    let rest4 := cs.drop 4
    let extra :=
      match rest4 with
      | c :: _ => if Char.toLower c = 's' then 1 else 0
      | [] => 0
    match rest4.drop extra with
    | ':' :: '/' :: '/' :: restBody =>
      let run := restBody.takeWhile plainUrlChar
      if run.isEmpty then none
      else some (String.mk (cs.take (4 + extra + 3 + run.length)), restBody.drop run.length)
    | _ => none
  else none

def plainUrlFindallAux : Nat → List Char → List String → List String
  | 0, _, acc => acc
  | _ + 1, [], acc => acc
  | fuel + 1, c :: rest, acc =>
    match tryPlainUrl (c :: rest) with
    | some (u, rest2) => plainUrlFindallAux fuel rest2 (acc ++ [u])
    | none => plainUrlFindallAux fuel rest acc

def plainUrlFindall (s : String) : List String := plainUrlFindallAux s.data.length s.data []

/-- `looks_like_image`: strip the query string, lowercase, and test the
known still-image extensions. -/
def looksLikeImage (url : String) : Bool :=
  let low := (url.data.takeWhile (fun c => c ≠ '?')).map Char.toLower
  [".png", ".jpg", ".jpeg", ".webp", ".gif"].any (fun ext => listEndsWith low ext.data)

-- ---------------------------------------------------------------- data model

structure User where
  id : Int
  name : String
  nick : String
  ava : String
  admin : Bool
  is_verified : Bool
  ava_data_uri : String
deriving DecidableEq

structure Comment where
  id : Int
  text_html : String
  created_iso : String
  user : User
  rating : Int
  sort : Int
  edited : Bool
  fixed : Bool
  comment_type : Int
  answer_comment_root_id : Int
  attaches : JVal
  parent_id : Int
  reply_expected : Int

/-- `parse_user`. -/
def parseUser (u : JVal) : Except PyErr User := do
  let uid ← pyInt (← pyGet u "id" (.int 0))
  let name := pyStr (pyOr (← pyGetAttr u "name") (.str ""))
  let nick := pyStr (pyOr (← pyGetAttr u "nick") (.str ""))
  let ava := pyStr (pyOr (← pyGetAttr u "ava") (.str ""))
  let admin := truthy (← pyGet u "admin" (.bool false))
  let isv := truthy (← pyGet u "is_verified" (.bool false))
  pure ⟨uid, name, nick, ava, admin, isv, ""⟩

/-- `parse_comment`, with the source's evaluation order: the rating object,
then `answer_comment_count`, then the `Comment(...)` arguments in the order
written, and finally the parent inferred from the body markup. -/
def parseComment (c : JVal) : Except PyErr Comment := do
  let ratingVal ← (do
    let r ← pyGetAttr c "raiting"
    match r with
    | .dict kvs => pyInt ((kvs.lookup "val").getD (.int 0))
    | _ => pure 0)
  let replyExpected ← pyInt (pyOr (← pyGet c "answer_comment_count" (.int 0)) (.int 0))
  let idv ← pySub c "id"
  let cid ← pyInt idv
  let textHtml := pyStr (pyOr (← pyGetAttr c "text_template") (.str ""))
  let createdIso := pyStr (pyOr (← pyGetAttr c "data_create") (.str ""))
  let user ← parseUser (pyOr (← pyGetAttr c "user") (.dict []))
  let sort ← pyInt (← pyGet c "sort" (.int 0))
  let edited := truthy (← pyGet c "edited" (.bool false))
  let fixed := truthy (← pyGet c "fixed" (.bool false))
  let commentType ← pyInt (← pyGet c "comment_type" (.int 0))
  let rootId ← pyInt (pyOr (← pyGet c "answer_comment_root_id" (.int 0)) (.int 0))
  let attaches := pyOr (← pyGetAttr c "attaches") (.list [])
  let parentId := (comAnsSearch textHtml.data).getD 0
  pure ⟨cid, textHtml, createdIso, user, ratingVal, sort, edited, fixed,
        commentType, rootId, attaches, parentId, replyExpected⟩

-- ---------------------------------------------------------------- binary fetcher

/-- An HTTP response as `url_to_data_uri` observes it: status code, the
optional `Content-Type` header, and the body bytes. -/
structure HttpResp where
  status : Nat
  contentType : Option String
  content : List Nat

def b64Alphabet : List Char :=
  "ABCDEFGHIJKLMNOPQRSTUVWXYZabcdefghijklmnopqrstuvwxyz0123456789+/".data

def b64Char (i : Nat) : Char := b64Alphabet.getD i 'A'

/-- `base64.b64encode(...).decode("ascii")` on the body bytes. -/
def b64encode : List Nat → String
  | [] => ""
  | [a] =>
    String.mk [b64Char (a / 4 % 64), b64Char (a % 4 * 16), '=', '=']
  | [a, b] =>
    String.mk [b64Char (a / 4 % 64), b64Char (a % 4 * 16 + b / 16 % 16),
               b64Char (b % 16 * 4), '=']
  | a :: b :: c :: rest =>
    String.mk [b64Char (a / 4 % 64), b64Char (a % 4 * 16 + b / 16 % 16),
               b64Char (b % 16 * 4 + c / 64 % 4), b64Char (c % 64)] ++ b64encode rest

/-- Python's `str.strip()` (whitespace from both ends). -/
def pyStrip (s : String) : String :=
  String.mk (((s.data.dropWhile isPySpace).reverse.dropWhile isPySpace).reverse)

/-- The media type: `(headers.get("Content-Type", "") or "").split(";")[0].strip()
or "application/octet-stream"`. -/
def respCType (r : HttpResp) : String :=
  let s := pyStrip (String.mk (((r.contentType.getD "")).data.takeWhile (fun c => c ≠ ';')))
  if s = "" then "application/octet-stream" else s

/-- The data URI built on a successful attempt. -/
def mkDataUri (r : HttpResp) : String :=
  "data:" ++ respCType r ++ ";base64," ++ b64encode r.content

/-- Observable outcome of one `url_to_data_uri` invocation: the returned
value, how many GETs were issued, and the backoff sleeps in exact
milliseconds (the source's `delay = 0.25; delay *= 2` is exactly
`250 * 2^attempt` ms). -/
structure FetchOut where
  result : Option String
  gets : Nat
  sleeps : List Nat
deriving DecidableEq

/-- Is attempt `k` of the oracle a success by the source's test
(`status_code == 200 and resp.content`)? -/
def attemptOk (fetch : Nat → Except Unit HttpResp) (k : Nat) : Bool :=
  match fetch k with
  | .ok r => r.status == 200 && !r.content.isEmpty
  | .error _ => false

def urlToDataUriAux (fetch : Nat → Except Unit HttpResp) :
    Nat → Nat → Nat → List Nat → FetchOut
  | 0, _, gets, sleeps => ⟨none, gets, sleeps⟩
  | fuel + 1, attempt, gets, sleeps =>
    match fetch attempt with
    | .ok r =>
      if r.status == 200 && !r.content.isEmpty then
        ⟨some (mkDataUri r), gets + 1, sleeps⟩
      else
        urlToDataUriAux fetch fuel (attempt + 1) (gets + 1) (sleeps ++ [250 * 2 ^ attempt])
    | .error _ =>
      urlToDataUriAux fetch fuel (attempt + 1) (gets + 1) (sleeps ++ [250 * 2 ^ attempt])

/-- `url_to_data_uri`: up to `maxRetries` GETs; a transport exception or a
response failing the success test sleeps the exponential backoff and
retries; exhaustion returns `None`. -/
def urlToDataUri (fetch : Nat → Except Unit HttpResp) (maxRetries : Nat) : FetchOut :=
  urlToDataUriAux fetch maxRetries 0 0 []

-- ---------------------------------------------------------------- embedding passes

/-- A Python `set` accumulated in iteration order, as the deduplicated
list of first occurrences (membership is all that the set contributes;
the per-URL results do not depend on iteration order). -/
def dedupFirst (l : List String) : List String :=
  l.foldl (fun acc u => if acc.contains u then acc else acc ++ [u]) []

/-- The distinct non-empty avatar URLs across all comments
(`set(c.user.ava for c in comments if c.user.ava)`). -/
def avatarUrls (comments : List Comment) : List String :=
  dedupFirst (comments.filterMap (fun c => if c.user.ava ≠ "" then some c.user.ava else none))

/-- `embed_avatars`.  Returns the updated comments and, as the fetch log,
the list of URLs for which `url_to_data_uri` was invoked (exactly the
distinct avatar URLs).  `fetch url attempt` is the network oracle. -/
def embedAvatars (fetch : String → Nat → Except Unit HttpResp)
    (comments : List Comment) : List Comment × List String :=
  let urls := avatarUrls comments
  let cache : List (String × Option String) :=
    urls.map (fun u => (u, (urlToDataUri (fetch u) 3).result))
  let comments2 := comments.map (fun c =>
    if c.user.ava = "" then c
    else
      match cache.lookup c.user.ava with
      | some (some d) =>
        if d = "" then c else { c with user := { c.user with ava_data_uri := d } }
      | _ => c)
  (comments2, urls)

/-- The attachment scan of `discover_image_links`: richpreview attachments
whose URL looks like a still image. -/
def richUrls (c : Comment) : Except PyErr (List String) := do
  let items ← pyIter (pyOr c.attaches (.list []))
  items.foldlM (fun acc a => do
    let t ← pyGetAttr a "type"
    match t with
    | .str s =>
      if s = "richpreview" then do
        let d := pyOr (← pyGetAttr a "data") (.dict [])
        let u := pyOr (← pyGetAttr d "url") (.str "")
        match u with
        | .str us => if looksLikeImage us then pure (acc ++ [us]) else pure acc
        | _ => .error .attrErr
      else pure acc
    | _ => pure acc) []

/-- Python's string comparison `s <= t`: code-point lexicographic order
on the character sequences. -/
def strLe : List Char → List Char → Bool
  | [], _ => true
  | _ :: _, [] => false
  | a :: as, b :: bs =>
    if a.toNat < b.toNat then true
    else if b.toNat < a.toNat then false
    else strLe as bs

/-- Python's `sorted` on strings: a stable sort by code-point order. -/
def sortStrings (l : List String) : List String :=
  List.insertionSort (fun a b => strLe a.data b.data = true) l

/-- `discover_image_links`: the sorted deduplicated union of image-looking
href targets, bare URLs and richpreview attachment URLs. -/
def discoverImageLinks (c : Comment) : Except PyErr (List String) := do
  let au ← richUrls c
  pure (sortStrings (dedupFirst
    ((hrefFindall c.text_html).filter looksLikeImage ++
     (plainUrlFindall c.text_html).filter looksLikeImage ++ au)))

/-- `dict` insertion: a later assignment to an existing key replaces the
value in place, a new key is appended. -/
def dictInsert {β : Type} (kvs : List (Int × β)) (k : Int) (v : β) : List (Int × β) :=
  if (kvs.map Prod.fst).contains k then
    kvs.map (fun kv => if kv.1 = k then (k, v) else kv)
  else kvs ++ [(k, v)]

/-- One step of `embed_linked_images`' discovery loop: record the
per-comment candidate list (dict write, so a duplicate comment id
overwrites in place) and add the candidates to the global URL pool. -/
def pcuStep (st : List (Int × List String) × List String) (c : Comment) :
    Except PyErr (List (Int × List String) × List String) := do
  let ulist ← discoverImageLinks c
  if ulist.isEmpty then pure st
  else pure (dictInsert st.1 c.id ulist, st.2 ++ ulist)

/-- The `(original URL, data URI)` pairs a candidate list yields from the
cache (`if data_uri: items.append((u, data_uri))`). -/
def itemsFor (cache : List (String × Option String)) (ulist : List String) :
    List (String × String) :=
  ulist.filterMap (fun u =>
    match cache.lookup u with
    | some (some d) => if d = "" then none else some (u, d)
    | _ => none)

/-- One step of `embed_linked_images`' result loop: keep an entry only
when at least one candidate resolved. -/
def byCommentStep (cache : List (String × Option String))
    (acc : List (Int × List (String × String))) (kv : Int × List String) :
    List (Int × List (String × String)) :=
  if (itemsFor cache kv.2).isEmpty then acc else acc ++ [(kv.1, itemsFor cache kv.2)]

/-- `embed_linked_images`.  Returns the per-comment-id list of
`(original URL, data URI)` pairs and, as the fetch log, the URLs for which
`url_to_data_uri` was invoked (the distinct candidate URLs). -/
def embedLinkedImages (fetch : String → Nat → Except Unit HttpResp)
    (comments : List Comment) :
    Except PyErr (List (Int × List (String × String)) × List String) := do
  let (pcu, allRaw) ← comments.foldlM pcuStep ([], [])
  let allUrls := dedupFirst allRaw
  let cache : List (String × Option String) :=
    allUrls.map (fun u => (u, (urlToDataUri (fetch u) 3).result))
  pure (pcu.foldl (byCommentStep cache) [], allUrls)

-- ---------------------------------------------------------------- collection engine

/-- The network oracle for one run.  `first` is the response of the first
page call; `page n` the response of the `n`-th older-page call; `thread r`
the response of the thread-completion call for root id `r`; `fetch u k` the
response of the `k`-th GET attempt for binary URL `u`.  An `.error` on the
JSON endpoints is a `requests.RequestException` unless stated otherwise
(`r.json()` decode failures surface as `.valueErr`). -/
structure Api where
  first : Except PyErr JVal
  page : Nat → Except PyErr JVal
  thread : Int → Except PyErr JVal
  fetch : String → Nat → Except Unit HttpResp

/-- `min((c.sort for c in comments), default=0)`. -/
def currentMinSort (comments : List Comment) : Int :=
  match comments.map (fun c => c.sort) with
  | [] => 0
  | x :: xs => xs.foldl min x

/-- One step of the dedup-insert loop
(`cm = parse_comment(c); if cm.id not in seen: seen.add; comments.append; added += 1`). -/
def insertOne (st : List Int × List Comment × Nat) (raw : JVal) :
    Except PyErr (List Int × List Comment × Nat) := do
  let cm ← parseComment raw
  if st.1.contains cm.id then pure st
  else pure (cm.id :: st.1, st.2.1 ++ [cm], st.2.2 + 1)

def insertAll (st : List Int × List Comment × Nat) (raws : List JVal) :
    Except PyErr (List Int × List Comment × Nat) :=
  raws.foldlM insertOne st

/-- `(resp.get("data") or {}).get("comments") or []`, then iteration —
shared by the older-page and thread-completion calls. -/
def extractPageComments (resp : JVal) : Except PyErr (List JVal) := do
  let dataP := pyOr (← pyGetAttr resp "data") (.dict [])
  let newRawJ := pyOr (← pyGetAttr dataP "comments") (.list [])
  pyIter newRawJ

/-- The `while pages_done < max_pages` pagination loop.  `fuel` is
`max_pages - pages_done`, so the loop is bounded exactly as in the source
(`pages_done` increases by one on every iteration). -/
def paginateLoop (api : Api) : Nat → Nat → List Int → List Comment →
    Except PyErr (Nat × List Int × List Comment)
  | 0, pagesDone, seen, comments => .ok (pagesDone, seen, comments)
  | fuel + 1, pagesDone, seen, comments =>
    let cursor := currentMinSort comments
    if cursor ≤ 0 then .ok (pagesDone, seen, comments)
    else do
      let resp ← api.page pagesDone
      let newRaw ← extractPageComments resp
      if newRaw.isEmpty then .ok (pagesDone + 1, seen, comments)
      else do
        let (seen2, comments2, added) ← insertAll (seen, comments, 0) newRaw
        if added = 0 then .ok (pagesDone + 1, seen2, comments2)
        else paginateLoop api fuel (pagesDone + 1) seen2 comments2

/-- The metadata extraction of the first page call (source lines
552–559): `data`, `chat`, `comments_raw`, `site_id`, `hash`, `title`,
`count_comment_all`, in source order. -/
def firstExtract (initial : JVal) :
    Except PyErr (Int × String × String × Int × List JVal) := do
  let data := pyOr (← pyGetAttr initial "data") (.dict [])
  let chat := pyOr (← pyGetAttr data "chat") (.dict [])
  let commentsRawJ := pyOr (← pyGetAttr data "comments") (.list [])
  let siteId ← pyInt (← pyGet chat "site_id" (.int 6289))
  let hashVal := pyStr (pyOr (← pyGetAttr chat "hash") (.str "null"))
  let title := pyStr (pyOr (← pyGetAttr chat "title") (.str "FitGirl Comments"))
  let totalCount ← pyInt (← pyGet chat "count_comment_all" (.int 0))
  let raws ← pyIter commentsRawJ
  pure (siteId, hashVal, title, totalCount, raws)

/-- `by_root_count`: for each comment with nonzero root id, one increment
at that root id. -/
def buildBrc (comments : List Comment) : Int → Nat :=
  comments.foldl
    (fun brc c =>
      if c.answer_comment_root_id != 0 then
        fun k => if k = c.answer_comment_root_id then brc c.answer_comment_root_id + 1 else brc k
      else brc)
    (fun _ => 0)

/-- The number of collected comments whose root id is `rid`. -/
def countRoot (comments : List Comment) (rid : Int) : Nat :=
  (comments.filter (fun c => c.answer_comment_root_id == rid)).length

/-- The roots: comments with `answer_comment_root_id == 0`. -/
def rootsOf (comments : List Comment) : List Comment :=
  comments.filter (fun c => c.answer_comment_root_id == 0)

/-- State of the thread-completion phase.  `calls` is the log of root ids
for which a `thread_call` was issued. -/
structure TState where
  seen : List Int
  comments : List Comment
  brc : Int → Nat
  calls : List Int

/-- One iteration of the per-root completion loop.  A transport failure on
the thread call is swallowed (`except requests.RequestException:
continue`); any other error — a JSON decode failure or a parse error on a
returned record — propagates. -/
def processRootCall (resp : Except PyErr JVal) (st : TState) (root : Comment) :
    Except PyErr TState :=
  match resp with
  | .error .transport => pure { st with calls := st.calls ++ [root.id] }
  | .error e => .error e
  | .ok tdata => do
    let raws ← extractPageComments tdata
    let (seen2, comments2, added) ← insertAll (st.seen, st.comments, 0) raws
    pure ⟨seen2, comments2,
      (if added ≠ 0
        then (fun k => if k = root.id then countRoot comments2 root.id else st.brc k)
        else st.brc),
      st.calls ++ [root.id]⟩

def processRoot (api : Api) (st : TState) (root : Comment) : Except PyErr TState :=
  if (st.brc root.id : Int) < root.reply_expected then
    processRootCall (api.thread root.id) st root
  else pure st

/-- The thread-completion phase: the roots list and `by_root_count` are
computed once from the post-pagination collection, then each root is
processed in order. -/
def threadPhase (api : Api) (comments : List Comment) (seen : List Int) :
    Except PyErr TState :=
  (rootsOf comments).foldlM (processRoot api) ⟨seen, comments, buildBrc comments, []⟩

structure Meta where
  title : String
  site_id : Int
  hash : String
  total_reported : Int
  pages : Nat
deriving DecidableEq

/-- `collect_all_comments`.  `maxPages` is the pagination safety cap. -/
def collectAllComments (api : Api) (maxPages : Nat) :
    Except PyErr (Meta × List Comment × List (Int × List (String × String))) := do
  let initial ← api.first
  let (siteId, hashVal, title, totalCount, raws) ← firstExtract initial
  let (seen, comments, _) ← insertAll ([], [], 0) raws
  let (pages, seen2, comments2) ← paginateLoop api maxPages 0 seen comments
  let tst ← threadPhase api comments2 seen2
  let (comments3, _avLog) := embedAvatars api.fetch tst.comments
  let (imgs, _imgLog) ← embedLinkedImages api.fetch comments3
  pure (⟨title, siteId, hashVal, totalCount, pages⟩, comments3, imgs)

-- ---------------------------------------------------------------- tree assembly

/-- The reconciliation loop at the head of `build_html`: roots get
`parent_id = 0`; a reply keeps its markup-inferred parent only when it is
nonzero and references a collected id, otherwise the parent becomes the
root id. -/
def reconcile (comments : List Comment) : List Comment :=
  let ids := comments.map (fun c => c.id)
  comments.map (fun c =>
    if c.answer_comment_root_id = 0 then { c with parent_id := 0 }
    else if c.parent_id ≠ 0 ∧ c.parent_id ∈ ids then c
    else { c with parent_id := c.answer_comment_root_id })

/-- The `children` grouping of `build_html`: non-root comments keyed by
their reconciled parent id, in collection order. -/
def childrenOf (comments : List Comment) (pid : Int) : List Comment :=
  comments.filter (fun c => c.answer_comment_root_id != 0 && c.parent_id == pid)

/-- `sorted(roots, key=lambda x: x.sort, reverse=True)`: a stable
descending sort by sort key. -/
def sortRootsDesc (l : List Comment) : List Comment :=
  List.insertionSort (fun a b => b.sort ≤ a.sort) l

/-- `sorted(kids, key=lambda x: x.sort)` in `render_reply_tree`: a stable
ascending sort by sort key, applied to every children list. -/
def sortKidsAsc (l : List Comment) : List Comment :=
  List.insertionSort (fun a b => a.sort ≤ b.sort) l

/-- Modelled from the spec: the inferred-parent id of a comment "resolves
(directly or transitively) back to that root" — follow parent ids through
the collection until a root is reached; returns that root's id. -/
def chaseToRoot (comments : List Comment) : Nat → Int → Option Int
  | 0, _ => none
  | fuel + 1, cid =>
    match comments.find? (fun c => c.id == cid) with
    | none => none
    | some c =>
      if c.answer_comment_root_id == 0 then some c.id
      else chaseToRoot comments fuel c.parent_id

/-- Is the oracle's thread-call response for root id `rid` well formed and
scoped to that thread: either a swallowed transport failure, or a payload
whose records all parse and carry root id `rid`? -/
def scopedThreadResp (resp : Except PyErr JVal) (rid : Int) : Bool :=
  match resp with
  | .error .transport => true
  | .error _ => false
  | .ok j =>
    match extractPageComments j with
    | .error _ => false
    | .ok raws => raws.all (fun raw =>
        match parseComment raw with
        | .ok cm => cm.answer_comment_root_id == rid
        | .error _ => false)

-- ---------------------------------------------------------------- helper lemmas

theorem urlToDataUriAux_ok (fetch : Nat → Except Unit HttpResp) (fuel attempt gets : Nat)
    (sleeps : List Nat) (h : attemptOk fetch attempt = true) :
    ∃ r, fetch attempt = .ok r ∧
      urlToDataUriAux fetch (fuel + 1) attempt gets sleeps =
        ⟨some (mkDataUri r), gets + 1, sleeps⟩ := by
  unfold attemptOk at h
  cases hf : fetch attempt with
  | error e => rw [hf] at h; simp at h
  | ok r =>
    rw [hf] at h
    refine ⟨r, rfl, ?_⟩
    have hu : urlToDataUriAux fetch (fuel + 1) attempt gets sleeps =
        if r.status == 200 && !r.content.isEmpty then
          ⟨some (mkDataUri r), gets + 1, sleeps⟩
        else urlToDataUriAux fetch fuel (attempt + 1) (gets + 1)
          (sleeps ++ [250 * 2 ^ attempt]) := by
      simp only [urlToDataUriAux, hf]
    rw [hu, if_pos h]

theorem urlToDataUriAux_fail (fetch : Nat → Except Unit HttpResp) (fuel attempt gets : Nat)
    (sleeps : List Nat) (h : attemptOk fetch attempt = false) :
    urlToDataUriAux fetch (fuel + 1) attempt gets sleeps =
      urlToDataUriAux fetch fuel (attempt + 1) (gets + 1) (sleeps ++ [250 * 2 ^ attempt]) := by
  unfold attemptOk at h
  cases hf : fetch attempt with
  | error e => simp only [urlToDataUriAux, hf]
  | ok r =>
    rw [hf] at h
    have h2 : (r.status == 200 && !r.content.isEmpty) = false := h
    have hu : urlToDataUriAux fetch (fuel + 1) attempt gets sleeps =
        if r.status == 200 && !r.content.isEmpty then
          ⟨some (mkDataUri r), gets + 1, sleeps⟩
        else urlToDataUriAux fetch fuel (attempt + 1) (gets + 1)
          (sleeps ++ [250 * 2 ^ attempt]) := by
      simp only [urlToDataUriAux, hf]
    rw [hu, if_neg (by rw [h2]; exact Bool.false_ne_true)]

theorem urlToDataUriAux_gets_le (fetch : Nat → Except Unit HttpResp) :
    ∀ fuel attempt gets sleeps,
      (urlToDataUriAux fetch fuel attempt gets sleeps).gets ≤ gets + fuel := by
  intro fuel
  induction fuel with
  | zero => intro attempt gets sleeps; simp [urlToDataUriAux]
  | succ n ih =>
    intro attempt gets sleeps
    cases hf : fetch attempt with
    | ok r =>
      by_cases hc : (r.status == 200 && !r.content.isEmpty) = true
      · simp only [urlToDataUriAux, hf, if_pos hc]; omega
      · simp only [urlToDataUriAux, hf, if_neg hc]
        have := ih (attempt + 1) (gets + 1) (sleeps ++ [250 * 2 ^ attempt])
        omega
    | error e =>
      simp only [urlToDataUriAux, hf]
      have := ih (attempt + 1) (gets + 1) (sleeps ++ [250 * 2 ^ attempt])
      omega

-- ---------------------------------------------------------------- test fixtures

/-- A comment with the given id, sort key, root id and inferred parent;
all remaining fields defaulted.  Used for concrete instances. -/
def cEx (i srt rootid pid : Int) : Comment :=
  ⟨i, "", "", ⟨0, "", "", "", false, false, ""⟩, 0, srt, false, false, 0, rootid,
   .list [], pid, 0⟩

-- ---------------------------------------------------------------- claim C4

/-- C4: `build_html` orders roots by descending sort key and
`render_reply_tree` orders every children list by ascending sort key
(both are permutations of their input, hence drop or invent nothing);
the concrete spec examples `{10, 5, 20} ↦ [20, 10, 5]` (roots) and
`{3, 1, 2} ↦ [1, 2, 3]` (replies) hold, and on equal sort keys both sorts
keep the original insertion order (stability of Python's `sorted`,
mirrored by a stable insertion sort). -/
theorem build_html_ordering :
    (∀ l, List.Pairwise (fun a b : Comment => b.sort ≤ a.sort) (sortRootsDesc l)) ∧
    (∀ l, List.Perm (sortRootsDesc l) l) ∧
    (∀ l, List.Pairwise (fun a b : Comment => a.sort ≤ b.sort) (sortKidsAsc l)) ∧
    (∀ l, List.Perm (sortKidsAsc l) l) ∧
    (sortRootsDesc [cEx 1 10 0 0, cEx 2 5 0 0, cEx 3 20 0 0]).map (fun c => c.sort)
      = [20, 10, 5] ∧
    (sortKidsAsc [cEx 11 3 1 1, cEx 12 1 1 1, cEx 13 2 1 1]).map (fun c => c.sort)
      = [1, 2, 3] ∧
    sortRootsDesc [cEx 21 5 0 0, cEx 22 5 0 0] = [cEx 21 5 0 0, cEx 22 5 0 0] ∧
    sortKidsAsc [cEx 23 5 1 1, cEx 24 5 1 1] = [cEx 23 5 1 1, cEx 24 5 1 1] := by
  refine ⟨?_, ?_, ?_, ?_, by rfl, by rfl, by rfl, by rfl⟩
  · intro l
    haveI : IsTotal Comment (fun a b => b.sort ≤ a.sort) :=
      ⟨fun a b => le_total b.sort a.sort⟩
    haveI : IsTrans Comment (fun a b => b.sort ≤ a.sort) :=
      ⟨fun a b c hab hbc => le_trans hbc hab⟩
    exact List.sorted_insertionSort _ l
  · intro l; exact List.perm_insertionSort _ l
  · intro l
    haveI : IsTotal Comment (fun a b => a.sort ≤ b.sort) :=
      ⟨fun a b => le_total a.sort b.sort⟩
    haveI : IsTrans Comment (fun a b => a.sort ≤ b.sort) :=
      ⟨fun a b c hab hbc => le_trans hab hbc⟩
    exact List.sorted_insertionSort _ l
  · intro l; exact List.perm_insertionSort _ l

-- ---------------------------------------------------------------- claim C8

/-- C8: `url_to_data_uri` issues at most 3 GETs; if the first success (by
the source's test: transport-exception-free, status 200, nonempty body)
comes at attempt `i`, the result is the base64 data URI of that response,
`i + 1` GETs were issued and the sleeps so far are the exponential
backoff `250·2^k` ms for each failed attempt `k < i`; if all 3 attempts
fail it returns `none` after sleeping `[250, 500, 1000]` ms; an absent
`Content-Type` header yields the generic `application/octet-stream` type.
The embedding is total, so no exception escapes to the caller. -/
theorem url_to_data_uri_retry_contract :
    (∀ fetch, (urlToDataUri fetch 3).gets ≤ 3) ∧
    (∀ fetch i, i < 3 → attemptOk fetch i = true →
      (∀ k, k < i → attemptOk fetch k = false) →
      ∃ r, fetch i = .ok r ∧
        urlToDataUri fetch 3 =
          ⟨some (mkDataUri r), i + 1, (List.range i).map (fun k => 250 * 2 ^ k)⟩) ∧
    (∀ fetch, (∀ k, k < 3 → attemptOk fetch k = false) →
      urlToDataUri fetch 3 = ⟨none, 3, [250, 500, 1000]⟩) ∧
    (∀ r : HttpResp, r.contentType = none →
      mkDataUri r = "data:application/octet-stream;base64," ++ b64encode r.content) := by
  refine ⟨?_, ?_, ?_, ?_⟩
  · intro fetch
    have := urlToDataUriAux_gets_le fetch 3 0 0 []
    simpa [urlToDataUri] using this
  · intro fetch i hi hok hfail
    interval_cases i
    · obtain ⟨r, hr, ha⟩ := urlToDataUriAux_ok fetch 2 0 0 [] hok
      exact ⟨r, hr, ha⟩
    · have e1 : urlToDataUriAux fetch (2 + 1) 0 0 [] = urlToDataUriAux fetch 2 1 1 [250] :=
        urlToDataUriAux_fail fetch 2 0 0 [] (hfail 0 (by omega))
      obtain ⟨r, hr, ha⟩ := urlToDataUriAux_ok fetch 1 1 1 [250] hok
      exact ⟨r, hr, e1.trans ha⟩
    · have e1 : urlToDataUriAux fetch (2 + 1) 0 0 [] = urlToDataUriAux fetch 2 1 1 [250] :=
        urlToDataUriAux_fail fetch 2 0 0 [] (hfail 0 (by omega))
      have e2 : urlToDataUriAux fetch (1 + 1) 1 1 [250] =
          urlToDataUriAux fetch 1 2 2 [250, 500] :=
        urlToDataUriAux_fail fetch 1 1 1 [250] (hfail 1 (by omega))
      obtain ⟨r, hr, ha⟩ := urlToDataUriAux_ok fetch 0 2 2 [250, 500] hok
      exact ⟨r, hr, e1.trans (e2.trans ha)⟩
  · intro fetch hf
    have e1 : urlToDataUriAux fetch (2 + 1) 0 0 [] = urlToDataUriAux fetch 2 1 1 [250] :=
      urlToDataUriAux_fail fetch 2 0 0 [] (hf 0 (by omega))
    have e2 : urlToDataUriAux fetch (1 + 1) 1 1 [250] =
        urlToDataUriAux fetch 1 2 2 [250, 500] :=
      urlToDataUriAux_fail fetch 1 1 1 [250] (hf 1 (by omega))
    have e3 : urlToDataUriAux fetch (0 + 1) 2 2 [250, 500] = ⟨none, 3, [250, 500, 1000]⟩ :=
      (urlToDataUriAux_fail fetch 0 2 2 [250, 500] (hf 2 (by omega))).trans rfl
    exact e1.trans (e2.trans e3)
  · intro r hr
    simp [mkDataUri, respCType, pyStrip, hr]

/-- Witness for C8: a fetch oracle that fails twice (a transport error,
then a 404) and succeeds on the third attempt returns the inline PNG
payload after 2 GET failures, and an always-failing oracle returns
`none`. -/
def fetchW : Nat → Except Unit HttpResp := fun k =>
  if k = 0 then .error ()
  else if k = 1 then .ok ⟨404, some "text/html", [0]⟩
  else .ok ⟨200, some "image/png", [1]⟩

theorem url_to_data_uri_retry_contract_witness :
    (urlToDataUri fetchW 3).gets ≤ 3 ∧
    (∃ r, fetchW 2 = .ok r ∧
      urlToDataUri fetchW 3 =
        ⟨some (mkDataUri r), 2 + 1, (List.range 2).map (fun k => 250 * 2 ^ k)⟩) ∧
    urlToDataUri (fun _ => .error ()) 3 = ⟨none, 3, [250, 500, 1000]⟩ := by
  refine ⟨url_to_data_uri_retry_contract.1 fetchW, ?_, ?_⟩
  · exact url_to_data_uri_retry_contract.2.1 fetchW 2 (by omega) (by decide)
      (fun k hk => by interval_cases k <;> decide)
  · exact url_to_data_uri_retry_contract.2.2.1 (fun _ => .error ())
      (fun k _ => rfl)

-- ---------------------------------------------------------------- pagination lemmas

theorem paginateLoop_cursor_stop (api : Api) (fuel pd : Nat) (seen : List Int)
    (comments : List Comment) (h : currentMinSort comments ≤ 0) :
    paginateLoop api fuel pd seen comments = .ok (pd, seen, comments) := by
  cases fuel with
  | zero => rfl
  | succ n => simp only [paginateLoop]; rw [if_pos h]

theorem paginateLoop_page_err (api : Api) (fuel pd : Nat) (seen : List Int)
    (comments : List Comment) (e : PyErr) (hmin : 0 < currentMinSort comments)
    (hpage : api.page pd = .error e) :
    paginateLoop api (fuel + 1) pd seen comments = .error e := by
  simp only [paginateLoop]
  rw [if_neg (by omega), hpage]
  rfl

theorem paginateLoop_empty_stop (api : Api) (fuel pd : Nat) (seen : List Int)
    (comments : List Comment) (j : JVal) (hmin : 0 < currentMinSort comments)
    (hpage : api.page pd = .ok j) (hext : extractPageComments j = .ok []) :
    paginateLoop api (fuel + 1) pd seen comments = .ok (pd + 1, seen, comments) := by
  simp only [paginateLoop]
  rw [if_neg (by omega), hpage]
  show (extractPageComments j >>= _) = _
  rw [hext]
  rfl

theorem paginateLoop_nonew_stop (api : Api) (fuel pd : Nat) (seen : List Int)
    (comments : List Comment) (j : JVal) (raws : List JVal) (seen2 : List Int)
    (comments2 : List Comment) (hmin : 0 < currentMinSort comments)
    (hpage : api.page pd = .ok j) (hext : extractPageComments j = .ok raws)
    (hne : raws ≠ []) (hins : insertAll (seen, comments, 0) raws = .ok (seen2, comments2, 0)) :
    paginateLoop api (fuel + 1) pd seen comments = .ok (pd + 1, seen2, comments2) := by
  simp only [paginateLoop]
  rw [if_neg (by omega), hpage]
  show (extractPageComments j >>= _) = _
  rw [hext]
  show (if raws.isEmpty then _ else _) = _
  rw [if_neg (by simp [List.isEmpty_iff, hne])]
  show (insertAll (seen, comments, 0) raws >>= _) = _
  rw [hins]
  rfl

theorem bindOk {α β : Type} (a : α) (f : α → Except PyErr β) :
    (Except.ok a >>= f) = f a := rfl

theorem bindErr {α β : Type} (e : PyErr) (f : α → Except PyErr β) :
    ((Except.error e : Except PyErr α) >>= f) = .error e := rfl

theorem pureOk {α : Type} (a : α) : (pure a : Except PyErr α) = .ok a := rfl

theorem insertAll_extends :
    ∀ (raws : List JVal) (seen : List Int) (comments : List Comment) (added : Nat)
      (out : List Int × List Comment × Nat),
      insertAll (seen, comments, added) raws = .ok out →
      ∃ ext, out.2.1 = comments ++ ext := by
  intro raws
  induction raws with
  | nil =>
    intro seen comments added out h
    simp only [insertAll, List.foldlM_nil, pureOk] at h
    cases h
    exact ⟨[], by simp⟩
  | cons raw rest ih =>
    intro seen comments added out h
    simp only [insertAll, List.foldlM_cons] at h
    cases hp : parseComment raw with
    | error e => simp only [insertOne, hp, bindErr] at h; cases h
    | ok cm =>
      simp only [insertOne, hp, bindOk] at h
      by_cases hc : (seen.contains cm.id) = true
      · rw [if_pos hc, pureOk, bindOk] at h
        exact ih seen comments added out h
      · rw [if_neg hc, pureOk, bindOk] at h
        obtain ⟨ext, hext⟩ := ih (cm.id :: seen) (comments ++ [cm]) (added + 1) out h
        exact ⟨cm :: ext, by simpa using hext⟩

theorem insertAll_single_dup (raw : JVal) (cm : Comment) (seen : List Int)
    (comments : List Comment) (hp : parseComment raw = .ok cm)
    (hc : seen.contains cm.id = true) :
    insertAll (seen, comments, 0) [raw] = .ok (seen, comments, 0) := by
  simp only [insertAll, List.foldlM_cons, List.foldlM_nil, insertOne, hp, bindOk]
  rw [if_pos hc, pureOk, bindOk, pureOk]

theorem paginateLoop_pages_le (api : Api) :
    ∀ fuel pd seen comments pg s c,
      paginateLoop api fuel pd seen comments = .ok (pg, s, c) → pg ≤ pd + fuel := by
  intro fuel
  induction fuel with
  | zero =>
    intro pd seen comments pg s c h
    simp only [paginateLoop] at h
    cases h
    omega
  | succ n ih =>
    intro pd seen comments pg s c h
    simp only [paginateLoop] at h
    by_cases hc : currentMinSort comments ≤ 0
    · rw [if_pos hc] at h
      cases h
      omega
    · rw [if_neg hc] at h
      cases hp : api.page pd with
      | error e => rw [hp, bindErr] at h; cases h
      | ok j =>
        rw [hp, bindOk] at h
        cases he : extractPageComments j with
        | error e => rw [he, bindErr] at h; cases h
        | ok raws =>
          rw [he, bindOk] at h
          by_cases hre : raws.isEmpty = true
          · rw [if_pos hre] at h
            cases h
            omega
          · rw [if_neg hre] at h
            cases hi : insertAll (seen, comments, 0) raws with
            | error e => rw [hi, bindErr] at h; cases h
            | ok out =>
              obtain ⟨s2, c2, added⟩ := out
              rw [hi, bindOk] at h
              by_cases ha : added = 0
              · subst ha
                rw [if_pos rfl] at h
                cases h
                omega
              · rw [if_neg ha] at h
                have := ih (pd + 1) s2 c2 pg s c h
                omega

theorem paginateLoop_extends (api : Api) :
    ∀ fuel pd seen comments pg s c,
      paginateLoop api fuel pd seen comments = .ok (pg, s, c) →
      ∃ ext, c = comments ++ ext := by
  intro fuel
  induction fuel with
  | zero =>
    intro pd seen comments pg s c h
    simp only [paginateLoop] at h
    cases h
    exact ⟨[], by simp⟩
  | succ n ih =>
    intro pd seen comments pg s c h
    simp only [paginateLoop] at h
    by_cases hc : currentMinSort comments ≤ 0
    · rw [if_pos hc] at h
      cases h
      exact ⟨[], by simp⟩
    · rw [if_neg hc] at h
      cases hp : api.page pd with
      | error e => rw [hp, bindErr] at h; cases h
      | ok j =>
        rw [hp, bindOk] at h
        cases he : extractPageComments j with
        | error e => rw [he, bindErr] at h; cases h
        | ok raws =>
          rw [he, bindOk] at h
          by_cases hre : raws.isEmpty = true
          · rw [if_pos hre] at h
            cases h
            exact ⟨[], by simp⟩
          · rw [if_neg hre] at h
            cases hi : insertAll (seen, comments, 0) raws with
            | error e => rw [hi, bindErr] at h; cases h
            | ok out =>
              obtain ⟨s2, c2, added⟩ := out
              rw [hi, bindOk] at h
              obtain ⟨ext1, hext1⟩ := insertAll_extends raws seen comments 0 (s2, c2, added) hi
              by_cases ha : added = 0
              · subst ha
                rw [if_pos rfl] at h
                cases h
                exact ⟨ext1, hext1⟩
              · rw [if_neg ha] at h
                obtain ⟨ext2, hext2⟩ := ih (pd + 1) s2 c2 pg s c h
                refine ⟨ext1 ++ ext2, ?_⟩
                rw [hext2]
                have hc2 : c2 = comments ++ ext1 := hext1
                rw [hc2, List.append_assoc]

-- ---------------------------------------------------------------- claim C1

/-- A raw record with id 7 and sort key 5, and the comment it parses to. -/
def rawW : JVal := .dict [("id", .int 7), ("sort", .int 5)]

def cmW : Comment :=
  ⟨7, "", "", ⟨0, "", "", "", false, false, ""⟩, 0, 5, false, false, 0, 0, .list [], 0, 0⟩

def firstRespW : JVal :=
  .dict [("data", .dict [("chat", .dict [("hash", .str "h1")]),
                         ("comments", .list [rawW])])]

def pageRespW : JVal := .dict [("data", .dict [("comments", .list [rawW])])]

/-- An api whose first page succeeds with one comment (sort 5) and whose
every older-page call fails at the transport level. -/
def apiC1 : Api :=
  { first := .ok firstRespW
    page := fun _ => .error .transport
    thread := fun _ => .error .transport
    fetch := fun _ _ => .error () }

/-- C1 counterexample: after a successful first page call that collected
one comment, a transport-level failure on the first older-page call makes
`collect_all_comments` return the propagated exception — not the partial
collection plus metadata that the claim promises (`main` catches it and
exits nonzero, discarding everything collected). -/
theorem page_failure_aborts_counterexample :
    collectAllComments apiC1 400 = .error .transport := by rfl

/-- C1 amended: a transport-level failure on a later older-page call is
*not* treated like exhaustion: whenever the first page call succeeded, its
records were inserted, the pagination cursor is valid (positive minimum
sort key) and the next older-page call fails, `collect_all_comments`
propagates that exception to its caller instead of returning the partial
collection. -/
theorem later_page_failure_propagates (api : Api) (maxPages : Nat) (f : JVal)
    (siteId : Int) (hashVal title : String) (totalCount : Int) (raws : List JVal)
    (seen : List Int) (comments : List Comment) (k : Nat) (e : PyErr)
    (h1 : api.first = .ok f)
    (h2 : firstExtract f = .ok (siteId, hashVal, title, totalCount, raws))
    (h3 : insertAll ([], [], 0) raws = .ok (seen, comments, k))
    (h4 : 0 < currentMinSort comments)
    (h5 : 1 ≤ maxPages)
    (h6 : api.page 0 = .error e) :
    collectAllComments api maxPages = .error e := by
  obtain ⟨n, rfl⟩ : ∃ n, maxPages = n + 1 := ⟨maxPages - 1, by omega⟩
  have hloop := paginateLoop_page_err api n 0 seen comments e h4 h6
  simp only [collectAllComments, h1, h2, h3, bindOk, hloop, bindErr]

/-- Witness for C1's amended theorem at a concrete api. -/
def apiC1W : Api :=
  { first := .ok firstRespW
    page := fun _ => .error .keyErr
    thread := fun _ => .error .transport
    fetch := fun _ _ => .error () }

theorem later_page_failure_propagates_witness :
    collectAllComments apiC1W 400 = .error .keyErr :=
  later_page_failure_propagates apiC1W 400 firstRespW 6289 "h1" "FitGirl Comments" 0
    [rawW] [7] [cmW] 1 .keyErr rfl rfl rfl (by decide) (by omega) rfl

-- ---------------------------------------------------------------- claim C3

/-- C3: the pagination loop terminates for every response sequence, and by
the right guard.  (1) Safety cap: a successful run performs at most
`max_pages` older-page calls — the loop body increments `pages_done` on
every iteration, so the `while pages_done < max_pages` bound (here the
fuel) is exact.  (2) Cursor guard: a non-positive minimum sort key stops
the loop without any further call.  (3) Zero-records guard: a page whose
payload carries no records stops the loop after that call.  (4)
Zero-new-records guard: a page whose records insert nothing new stops the
loop after that call; in particular a server that forever returns the same
single (already-seen, positive-sort) record terminates after exactly one
older-page call — for every remaining cap — rather than looping until the
cap. -/
theorem pagination_terminates_by_guards :
    (∀ (api : Api) fuel pd seen comments pg s c,
      paginateLoop api fuel pd seen comments = .ok (pg, s, c) → pg ≤ pd + fuel) ∧
    (∀ (api : Api) fuel pd seen comments, currentMinSort comments ≤ 0 →
      paginateLoop api fuel pd seen comments = .ok (pd, seen, comments)) ∧
    (∀ (api : Api) fuel pd seen comments j, 0 < currentMinSort comments →
      api.page pd = .ok j → extractPageComments j = .ok [] →
      paginateLoop api (fuel + 1) pd seen comments = .ok (pd + 1, seen, comments)) ∧
    (∀ (api : Api) fuel pd seen comments j raws seen2 comments2,
      0 < currentMinSort comments →
      api.page pd = .ok j → extractPageComments j = .ok raws → raws ≠ [] →
      insertAll (seen, comments, 0) raws = .ok (seen2, comments2, 0) →
      paginateLoop api (fuel + 1) pd seen comments = .ok (pd + 1, seen2, comments2)) ∧
    (∀ (api : Api) fuel pd seen comments raw cm j,
      parseComment raw = .ok cm → seen.contains cm.id = true →
      0 < currentMinSort comments →
      api.page pd = .ok j → extractPageComments j = .ok [raw] →
      paginateLoop api (fuel + 1) pd seen comments = .ok (pd + 1, seen, comments)) := by
  refine ⟨paginateLoop_pages_le, paginateLoop_cursor_stop, paginateLoop_empty_stop,
    paginateLoop_nonew_stop, ?_⟩
  intro api fuel pd seen comments raw cm j hp hc hmin hpage hext
  exact paginateLoop_nonew_stop api fuel pd seen comments j [raw] seen comments hmin hpage
    hext (by simp) (insertAll_single_dup raw cm seen comments hp hc)

/-- Witness for C3: a server that forever returns the single already-seen
record `rawW` stops after exactly one older-page call even with the whole
default cap of 400 still available. -/
def apiRepeatW : Api :=
  { first := .ok firstRespW
    page := fun _ => .ok pageRespW
    thread := fun _ => .error .transport
    fetch := fun _ _ => .error () }

theorem pagination_terminates_by_guards_witness :
    paginateLoop apiRepeatW 400 0 [7] [cmW] = .ok (1, [7], [cmW]) :=
  pagination_terminates_by_guards.2.2.2.2 apiRepeatW 399 0 [7] [cmW] rawW cmW
    pageRespW rfl rfl (by decide) rfl rfl

-- ---------------------------------------------------------------- claim C6

/-- C6 counterexample: (i) a record with a well-formed id but a
wrong-shaped optional field (`sort = "abc"`) makes `parse_comment` raise a
`ValueError` — the parser does *not* default wrong-shaped optional fields;
(ii) a record missing the mandatory id raises a `KeyError` that the
insertion loop does not catch, so the whole batch fails instead of the one
record being logged and skipped. -/
theorem parse_comment_raises_counterexample :
    parseComment (.dict [("id", .int 1), ("sort", .str "abc")]) = .error .valueErr ∧
    insertAll ([], [], 0) [.dict [("sort", .int 5)]] = .error .keyErr := ⟨rfl, rfl⟩

/-- C6 amended: `parse_comment` defaults *absent* optional fields safely
(empty string, zero, false, empty attachment list) — a record carrying
nothing but an integer id parses to the all-defaults comment; but a
record whose mandatory id is missing raises `KeyError` (provided the two
fields read before the id are themselves absent), and because the
insertion loop wraps no try/except around `parse_comment`, any record
that fails to parse aborts the whole batch rather than being logged and
skipped; wrong-shaped optional fields can likewise raise (see the
counterexample). -/
theorem parse_comment_defaults_and_batch_abort :
    (∀ n : Int, parseComment (.dict [("id", .int n)]) =
      .ok ⟨n, "", "", ⟨0, "", "", "", false, false, ""⟩, 0, 0, false, false, 0, 0,
           .list [], 0, 0⟩) ∧
    (∀ kvs : List (String × JVal), kvs.lookup "id" = none →
      kvs.lookup "raiting" = none → kvs.lookup "answer_comment_count" = none →
      parseComment (.dict kvs) = .error .keyErr) ∧
    (∀ (raw : JVal) (rest : List JVal) (seen : List Int) (comments : List Comment)
      (added : Nat) (e : PyErr), parseComment raw = .error e →
      insertAll (seen, comments, added) (raw :: rest) = .error e) := by
  refine ⟨fun n => rfl, ?_, ?_⟩
  · intro kvs h1 h2 h3
    simp only [parseComment, pyGetAttr, pyGet, pySub, pyOr, pyInt, truthy, h1, h2, h3,
      Option.getD, bindOk, bindErr]
    rfl
  · intro raw rest seen comments added e hp
    simp only [insertAll, List.foldlM_cons, insertOne, hp, bindErr]

/-- Witness for C6's amended theorem: the all-defaults parse at id 3, the
`KeyError` on a concrete id-less record, and the batch abort it causes. -/
theorem parse_comment_defaults_and_batch_abort_witness :
    parseComment (.dict [("id", .int 3)]) =
      .ok ⟨3, "", "", ⟨0, "", "", "", false, false, ""⟩, 0, 0, false, false, 0, 0,
           .list [], 0, 0⟩ ∧
    parseComment (.dict [("edited", .bool true)]) = .error .keyErr ∧
    insertAll ([], [], 0) [.dict [("edited", .bool true)], .dict [("id", .int 3)]] =
      .error .keyErr := by
  refine ⟨parse_comment_defaults_and_batch_abort.1 3, ?_, ?_⟩
  · exact parse_comment_defaults_and_batch_abort.2.1 [("edited", .bool true)] rfl rfl rfl
  · exact parse_comment_defaults_and_batch_abort.2.2 (.dict [("edited", .bool true)])
      [.dict [("id", .int 3)]] [] [] 0 .keyErr
      (parse_comment_defaults_and_batch_abort.2.1 [("edited", .bool true)] rfl rfl rfl)

-- ---------------------------------------------------------------- claim C9

/-- The three-comment collection refuting C9's transitive-resolution
clause: roots 1 and 2, and a reply in root 1's thread whose body markup
named comment 2 (a different thread's root) as its parent. -/
def collC9 : List Comment := [cEx 1 10 0 0, cEx 2 9 0 0, cEx 3 8 1 2]

/-- C9 counterexample: after reconciliation the reply (id 3, root-id 1)
keeps inferred-parent 2 — the markup-inferred parent is kept whenever it
references *any* collected id, even one in a different thread — and its
parent chain resolves to root 2, not to its own root 1.  The claim's
"resolves directly or transitively back to that comment's own root" fails. -/
theorem reconcile_crossthread_counterexample :
    reconcile collC9 = [cEx 1 10 0 0, cEx 2 9 0 0, cEx 3 8 1 2] ∧
    chaseToRoot (reconcile collC9) 10 2 = some 2 ∧ (2 : Int) ≠ 1 :=
  ⟨rfl, by decide, by decide⟩

/-- C9 amended: after `build_html`'s reconciliation, every comment with
root-id 0 has inferred-parent 0, every comment with nonzero root-id has an
inferred-parent equal to its root-id or referencing a member of the
collection, and a comment whose markup-inferred parent was 0 or referenced
no collected id gets exactly its root-id (e.g. root-id 42 ↦ parent 42);
but the kept markup parent may lie in a different thread, so the chain
need not resolve back to the comment's own root. -/
theorem reconcile_parent_invariant (comments : List Comment) :
    (∀ c2 ∈ reconcile comments, c2.answer_comment_root_id = 0 → c2.parent_id = 0) ∧
    (∀ c2 ∈ reconcile comments, c2.answer_comment_root_id ≠ 0 →
      c2.parent_id = c2.answer_comment_root_id ∨
        c2.parent_id ∈ comments.map (fun c => c.id)) ∧
    List.Forall₂ (fun c c2 => c.answer_comment_root_id ≠ 0 →
        (c.parent_id = 0 ∨ c.parent_id ∉ comments.map (fun c3 => c3.id)) →
        c2.parent_id = c.answer_comment_root_id)
      comments (reconcile comments) := by
  refine ⟨?_, ?_, ?_⟩
  · intro c2 hc2 hr
    simp only [reconcile, List.mem_map] at hc2
    obtain ⟨c, hc, rfl⟩ := hc2
    by_cases h0 : c.answer_comment_root_id = 0
    · rw [if_pos h0]
    · rw [if_neg h0] at hr ⊢
      by_cases hk : c.parent_id ≠ 0 ∧ ∃ a ∈ comments, a.id = c.parent_id
      · rw [if_pos hk] at hr; exact absurd hr h0
      · rw [if_neg hk] at hr; exact absurd hr h0
  · intro c2 hc2 hr
    simp only [reconcile, List.mem_map] at hc2
    obtain ⟨c, hc, rfl⟩ := hc2
    by_cases h0 : c.answer_comment_root_id = 0
    · rw [if_pos h0] at hr; exact absurd h0 hr
    · rw [if_neg h0] at hr ⊢
      by_cases hk : c.parent_id ≠ 0 ∧ ∃ a ∈ comments, a.id = c.parent_id
      · rw [if_pos hk]
        obtain ⟨a, ha, hai⟩ := hk.2
        exact Or.inr (List.mem_map.2 ⟨a, ha, hai⟩)
      · rw [if_neg hk]; exact Or.inl rfl
  · have : ∀ (l : List Comment),
        (∀ c ∈ l, c ∈ comments) →
        List.Forall₂ (fun c c2 => c.answer_comment_root_id ≠ 0 →
          (c.parent_id = 0 ∨ c.parent_id ∉ comments.map (fun c3 => c3.id)) →
          c2.parent_id = c.answer_comment_root_id)
        l (l.map (fun c =>
          if c.answer_comment_root_id = 0 then { c with parent_id := 0 }
          else if c.parent_id ≠ 0 ∧ c.parent_id ∈ comments.map (fun c3 => c3.id) then c
          else { c with parent_id := c.answer_comment_root_id })) := by
      intro l
      induction l with
      | nil => intro _; exact List.Forall₂.nil
      | cons c cs ih =>
        intro hsub
        refine List.Forall₂.cons ?_ (ih (fun x hx => hsub x (List.mem_cons_of_mem c hx)))
        intro hr hbad
        have hgoal : (if c.answer_comment_root_id = 0 then { c with parent_id := 0 }
            else if c.parent_id ≠ 0 ∧ c.parent_id ∈ comments.map (fun c3 => c3.id) then c
            else { c with parent_id := c.answer_comment_root_id }).parent_id
              = c.answer_comment_root_id := by
          rw [if_neg hr]
          by_cases hk : c.parent_id ≠ 0 ∧ c.parent_id ∈ comments.map (fun c3 => c3.id)
          · rcases hbad with h | h
            · exact absurd h hk.1
            · exact absurd hk.2 h
          · rw [if_neg hk]
        exact hgoal
    exact this comments (fun _ hx => hx)

/-- Witness for C9's amended theorem: in a collection with root 42 and a
reply (root-id 42) carrying no markup parent reference, the theorem
assigns the reply inferred-parent 42, and membership facts are discharged
concretely. -/
theorem reconcile_parent_invariant_witness :
    ((cEx 50 9 42 42).parent_id = (cEx 50 9 42 42).answer_comment_root_id ∨
      (cEx 50 9 42 42).parent_id ∈
        ([cEx 42 10 0 0, cEx 50 9 42 0]).map (fun c => c.id)) ∧
    List.Forall₂ (fun c c2 => c.answer_comment_root_id ≠ 0 →
        (c.parent_id = 0 ∨
          c.parent_id ∉ ([cEx 42 10 0 0, cEx 50 9 42 0]).map (fun c3 => c3.id)) →
        c2.parent_id = c.answer_comment_root_id)
      [cEx 42 10 0 0, cEx 50 9 42 0]
      (reconcile [cEx 42 10 0 0, cEx 50 9 42 0]) := by
  constructor
  · refine (reconcile_parent_invariant [cEx 42 10 0 0, cEx 50 9 42 0]).2.1
      (cEx 50 9 42 42) ?_ (by decide)
    rw [show reconcile [cEx 42 10 0 0, cEx 50 9 42 0] =
      [cEx 42 10 0 0, cEx 50 9 42 42] from rfl]
    exact List.mem_cons_of_mem _ (List.mem_singleton.2 rfl)
  · exact (reconcile_parent_invariant [cEx 42 10 0 0, cEx 50 9 42 0]).2.2

-- ---------------------------------------------------------------- claim C2

/-- Two comments agree on every field except the author's inline-avatar
field (`user.ava_data_uri`). -/
def EqExceptAvaUri (c c2 : Comment) : Prop :=
  c2.id = c.id ∧ c2.text_html = c.text_html ∧ c2.created_iso = c.created_iso ∧
  c2.user.id = c.user.id ∧ c2.user.name = c.user.name ∧ c2.user.nick = c.user.nick ∧
  c2.user.ava = c.user.ava ∧ c2.user.admin = c.user.admin ∧
  c2.user.is_verified = c.user.is_verified ∧
  c2.rating = c.rating ∧ c2.sort = c.sort ∧ c2.edited = c.edited ∧ c2.fixed = c.fixed ∧
  c2.comment_type = c.comment_type ∧
  c2.answer_comment_root_id = c.answer_comment_root_id ∧
  c2.attaches = c.attaches ∧ c2.parent_id = c.parent_id ∧
  c2.reply_expected = c.reply_expected

/-- Two comments agree on every field except the inferred-parent id. -/
def EqExceptParent (c c2 : Comment) : Prop :=
  c2.id = c.id ∧ c2.text_html = c.text_html ∧ c2.created_iso = c.created_iso ∧
  c2.user = c.user ∧
  c2.rating = c.rating ∧ c2.sort = c.sort ∧ c2.edited = c.edited ∧ c2.fixed = c.fixed ∧
  c2.comment_type = c.comment_type ∧
  c2.answer_comment_root_id = c.answer_comment_root_id ∧
  c2.attaches = c.attaches ∧ c2.reply_expected = c.reply_expected

theorem processRoot_extends (api : Api) (st : TState) (root : Comment) (st2 : TState)
    (h : processRoot api st root = .ok st2) :
    ∃ ext, st2.comments = st.comments ++ ext := by
  unfold processRoot at h
  by_cases hcond : (st.brc root.id : Int) < root.reply_expected
  · rw [if_pos hcond] at h
    cases ht : api.thread root.id with
    | error e =>
      rw [ht] at h
      cases e with
      | transport => simp only [processRootCall, pureOk] at h; cases h; exact ⟨[], by simp⟩
      | keyErr => simp only [processRootCall] at h; cases h
      | valueErr => simp only [processRootCall] at h; cases h
      | attrErr => simp only [processRootCall] at h; cases h
      | typeErr => simp only [processRootCall] at h; cases h
    | ok tdata =>
      rw [ht] at h
      simp only [processRootCall] at h
      cases he : extractPageComments tdata with
      | error e => rw [he, bindErr] at h; cases h
      | ok raws =>
        rw [he, bindOk] at h
        cases hi : insertAll (st.seen, st.comments, 0) raws with
        | error e => rw [hi, bindErr] at h; cases h
        | ok out =>
          obtain ⟨s2, c2, added⟩ := out
          rw [hi, bindOk] at h
          obtain ⟨ext, hext⟩ := insertAll_extends raws _ _ 0 (s2, c2, added) hi
          cases h
          exact ⟨ext, hext⟩
  · rw [if_neg hcond] at h
    cases h
    exact ⟨[], by simp⟩

theorem threadFold_extends (api : Api) :
    ∀ (roots : List Comment) (st st2 : TState),
      roots.foldlM (processRoot api) st = .ok st2 →
      ∃ ext, st2.comments = st.comments ++ ext := by
  intro roots
  induction roots with
  | nil =>
    intro st st2 h
    simp only [List.foldlM_nil, pureOk] at h
    cases h
    exact ⟨[], by simp⟩
  | cons r rs ih =>
    intro st st2 h
    simp only [List.foldlM_cons] at h
    cases hp : processRoot api st r with
    | error e => rw [hp, bindErr] at h; cases h
    | ok stMid =>
      rw [hp, bindOk] at h
      obtain ⟨ext1, hext1⟩ := processRoot_extends api st r stMid hp
      obtain ⟨ext2, hext2⟩ := ih stMid st2 h
      exact ⟨ext1 ++ ext2, by rw [hext2, hext1, List.append_assoc]⟩

theorem threadPhase_extends (api : Api) (comments : List Comment) (seen : List Int)
    (st2 : TState) (h : threadPhase api comments seen = .ok st2) :
    ∃ ext, st2.comments = comments ++ ext :=
  threadFold_extends api (rootsOf comments) ⟨seen, comments, buildBrc comments, []⟩ st2 h

/-- C2 counterexample: a comment whose parse result the tree assembler
*does* mutate in a non-embedding field.  The record is a root (root-id 0)
whose body markup quotes another comment via `data-id="7"`, so
`parse_comment` infers parent 7; `build_html`'s reconciliation then
overwrites the inferred-parent field to 0.  Tree assembly therefore
mutates a field other than the two embedding fields, refuting the claim
as stated. -/
def rawC2 : JVal :=
  .dict [("id", .int 1),
         ("text_template", .str "<a class=\"com_ans\" data-id=\"7\">quoted</a>")]

def cmC2 : Comment :=
  ⟨1, "<a class=\"com_ans\" data-id=\"7\">quoted</a>", "",
   ⟨0, "", "", "", false, false, ""⟩, 0, 0, false, false, 0, 0, .list [], 7, 0⟩

theorem tree_assembly_mutates_parent_counterexample :
    parseComment rawC2 = .ok cmC2 ∧ cmC2.parent_id = 7 ∧
    cmC2.answer_comment_root_id = 0 ∧
    (reconcile [cmC2]).map (fun c => c.parent_id) = [0] := ⟨rfl, rfl, rfl, rfl⟩

/-- C2 amended: the collection is a set keyed by id — parsing a record
whose id is already collected is a no-op (first-seen wins) — and the later
phases preserve it: pagination and thread completion only append (every
previously collected comment survives unchanged, in place), the avatar
pass rewrites only the author's inline-avatar field, and the linked-image
pass returns an auxiliary map without touching the comments (its embedding
is read-only by type).  The one exception the claim misses: tree
assembly's reconciliation may rewrite the inferred-parent id (and nothing
else) — see the counterexample. -/
theorem collection_set_invariants :
    (∀ (seen : List Int) (comments : List Comment) (added : Nat) (raw : JVal)
      (cm : Comment), parseComment raw = .ok cm → seen.contains cm.id = true →
      insertOne (seen, comments, added) raw = .ok (seen, comments, added)) ∧
    (∀ (api : Api) fuel pd seen comments pg s c,
      paginateLoop api fuel pd seen comments = .ok (pg, s, c) →
      ∃ ext, c = comments ++ ext) ∧
    (∀ (api : Api) comments seen st2,
      threadPhase api comments seen = .ok st2 →
      ∃ ext, st2.comments = comments ++ ext) ∧
    (∀ fetch comments,
      List.Forall₂ EqExceptAvaUri comments (embedAvatars fetch comments).1) ∧
    (∀ comments, List.Forall₂ EqExceptParent comments (reconcile comments)) := by
  refine ⟨?_, ?_, ?_, ?_, ?_⟩
  · intro seen comments added raw cm hp hc
    simp only [insertOne, hp, bindOk]
    rw [if_pos hc, pureOk]
  · intro api fuel pd seen comments pg s c h
    exact paginateLoop_extends api fuel pd seen comments pg s c h
  · intro api comments seen st2 h
    exact threadPhase_extends api comments seen st2 h
  · intro fetch comments
    have hg : ∀ (cache : List (String × Option String)) (c : Comment),
        EqExceptAvaUri c (if c.user.ava = "" then c
          else
            match cache.lookup c.user.ava with
            | some (some d) =>
              if d = "" then c else { c with user := { c.user with ava_data_uri := d } }
            | _ => c) := by
      intro cache c
      by_cases h1 : c.user.ava = ""
      · rw [if_pos h1]
        exact ⟨rfl, rfl, rfl, rfl, rfl, rfl, rfl, rfl, rfl, rfl, rfl, rfl, rfl, rfl,
               rfl, rfl, rfl, rfl⟩
      · rw [if_neg h1]
        cases hl : cache.lookup c.user.ava with
        | none =>
          exact ⟨rfl, rfl, rfl, rfl, rfl, rfl, rfl, rfl, rfl, rfl, rfl, rfl, rfl, rfl,
                 rfl, rfl, rfl, rfl⟩
        | some o =>
          cases o with
          | none =>
            exact ⟨rfl, rfl, rfl, rfl, rfl, rfl, rfl, rfl, rfl, rfl, rfl, rfl, rfl,
                   rfl, rfl, rfl, rfl, rfl⟩
          | some d =>
            show EqExceptAvaUri c (if d = "" then c
              else { c with user := { c.user with ava_data_uri := d } })
            by_cases hd : d = ""
            · rw [if_pos hd]
              exact ⟨rfl, rfl, rfl, rfl, rfl, rfl, rfl, rfl, rfl, rfl, rfl, rfl, rfl,
                     rfl, rfl, rfl, rfl, rfl⟩
            · rw [if_neg hd]
              exact ⟨rfl, rfl, rfl, rfl, rfl, rfl, rfl, rfl, rfl, rfl, rfl, rfl, rfl,
                     rfl, rfl, rfl, rfl, rfl⟩
    have hmap : ∀ (g : Comment → Comment), (∀ c, EqExceptAvaUri c (g c)) →
        ∀ l : List Comment, List.Forall₂ EqExceptAvaUri l (l.map g) := by
      intro g hgc l
      induction l with
      | nil => exact List.Forall₂.nil
      | cons c cs ih => exact List.Forall₂.cons (hgc c) ih
    exact hmap _ (hg _) comments
  · intro comments
    have hg : ∀ c : Comment,
        EqExceptParent c (if c.answer_comment_root_id = 0 then { c with parent_id := 0 }
          else if c.parent_id ≠ 0 ∧ c.parent_id ∈ comments.map (fun c3 => c3.id) then c
          else { c with parent_id := c.answer_comment_root_id }) := by
      intro c
      by_cases h0 : c.answer_comment_root_id = 0
      · rw [if_pos h0]
        exact ⟨rfl, rfl, rfl, rfl, rfl, rfl, rfl, rfl, rfl, rfl, rfl, rfl⟩
      · rw [if_neg h0]
        by_cases hk : c.parent_id ≠ 0 ∧ c.parent_id ∈ comments.map (fun c3 => c3.id)
        · rw [if_pos hk]
          exact ⟨rfl, rfl, rfl, rfl, rfl, rfl, rfl, rfl, rfl, rfl, rfl, rfl⟩
        · rw [if_neg hk]
          exact ⟨rfl, rfl, rfl, rfl, rfl, rfl, rfl, rfl, rfl, rfl, rfl, rfl⟩
    have hmap : ∀ (g : Comment → Comment), (∀ c, EqExceptParent c (g c)) →
        ∀ l : List Comment, List.Forall₂ EqExceptParent l (l.map g) := by
      intro g hgc l
      induction l with
      | nil => exact List.Forall₂.nil
      | cons c cs ih => exact List.Forall₂.cons (hgc c) ih
    exact hmap _ hg comments

/-- Witness for C2's amended theorem: the duplicate insertion of `rawW`
(id 7, already seen) is a no-op; the repeating-server pagination run only
appends; the avatar pass on `[cmW]` preserves all non-avatar fields. -/
theorem collection_set_invariants_witness :
    insertOne ([7], [cmW], 0) rawW = .ok ([7], [cmW], 0) ∧
    (∃ ext, [cmW] = [cmW] ++ ext) ∧
    List.Forall₂ EqExceptAvaUri [cmW]
      (embedAvatars (fun _ _ => .error ()) [cmW]).1 :=
  ⟨collection_set_invariants.1 [7] [cmW] 0 rawW cmW rfl rfl,
   collection_set_invariants.2.1 apiRepeatW 400 0 [7] [cmW] 1 [7] [cmW]
     pagination_terminates_by_guards_witness,
   collection_set_invariants.2.2.2.1 (fun _ _ => .error ()) [cmW]⟩

-- ---------------------------------------------------------------- dedup lemmas

theorem mem_dedupFoldl :
    ∀ (l acc : List String) (a : String),
      a ∈ l.foldl (fun acc u => if acc.contains u then acc else acc ++ [u]) acc ↔
        a ∈ acc ∨ a ∈ l := by
  intro l
  induction l with
  | nil => intro acc a; simp
  | cons u us ih =>
    intro acc a
    simp only [List.foldl_cons]
    by_cases hc : acc.contains u = true
    · rw [if_pos hc, ih]
      have hu : u ∈ acc := List.elem_iff.1 hc
      simp only [List.mem_cons]
      constructor
      · rintro (h | h)
        · exact Or.inl h
        · exact Or.inr (Or.inr h)
      · rintro (h | h | h)
        · exact Or.inl h
        · subst h; exact Or.inl hu
        · exact Or.inr h
    · rw [if_neg hc, ih]
      simp only [List.mem_append, List.mem_singleton, List.mem_cons]
      tauto

theorem nodup_dedupFoldl :
    ∀ (l acc : List String), acc.Nodup →
      (l.foldl (fun acc u => if acc.contains u then acc else acc ++ [u]) acc).Nodup := by
  intro l
  induction l with
  | nil => intro acc h; simpa using h
  | cons u us ih =>
    intro acc h
    simp only [List.foldl_cons]
    by_cases hc : acc.contains u = true
    · rw [if_pos hc]; exact ih acc h
    · rw [if_neg hc]
      refine ih (acc ++ [u]) ?_
      have hu : u ∉ acc := fun hm => hc (List.elem_iff.2 hm)
      simp [List.nodup_append, h, hu]

theorem nodup_dedupFirst (l : List String) : (dedupFirst l).Nodup :=
  nodup_dedupFoldl l [] (by simp)

theorem mem_dedupFirst (l : List String) (a : String) : a ∈ dedupFirst l ↔ a ∈ l := by
  unfold dedupFirst
  rw [mem_dedupFoldl]
  simp

theorem dictInsert_mem {β : Type} (kvs : List (Int × β)) (k : Int) (v : β)
    (kv : Int × β) (h : kv ∈ dictInsert kvs k v) : kv ∈ kvs ∨ kv = (k, v) := by
  unfold dictInsert at h
  by_cases hc : ((kvs.map Prod.fst).contains k) = true
  · rw [if_pos hc] at h
    obtain ⟨kv0, hkv0, heq⟩ := List.mem_map.1 h
    by_cases he : kv0.1 = k
    · rw [if_pos he] at heq; exact Or.inr heq.symm
    · rw [if_neg he] at heq; exact Or.inl (heq ▸ hkv0)
  · rw [if_neg hc] at h
    rcases List.mem_append.1 h with h2 | h2
    · exact Or.inl h2
    · exact Or.inr (List.mem_singleton.1 h2)

theorem pcuFold_spec :
    ∀ (cs : List Comment) (st out : List (Int × List String) × List String),
      cs.foldlM pcuStep st = .ok out →
      ((∀ u, u ∈ out.2 ↔
          u ∈ st.2 ∨ ∃ c ∈ cs, ∃ ul, discoverImageLinks c = .ok ul ∧ u ∈ ul) ∧
       (∀ kv ∈ out.1, kv ∈ st.1 ∨
          ∃ c ∈ cs, kv.1 = c.id ∧ discoverImageLinks c = .ok kv.2 ∧ kv.2 ≠ [])) := by
  intro cs
  induction cs with
  | nil =>
    intro st out h
    simp only [List.foldlM_nil, pureOk] at h
    cases h
    constructor
    · intro u; simp
    · intro kv hkv; exact Or.inl hkv
  | cons c cs2 ih =>
    intro st out h
    simp only [List.foldlM_cons] at h
    cases hd : discoverImageLinks c with
    | error e => simp only [pcuStep, hd, bindErr] at h; cases h
    | ok ulist =>
      simp only [pcuStep, hd, bindOk] at h
      by_cases hemp : ulist.isEmpty = true
      · rw [if_pos hemp, pureOk, bindOk] at h
        have hnil : ulist = [] := List.isEmpty_iff.1 hemp
        obtain ⟨ihm, ihkv⟩ := ih st out h
        constructor
        · intro u
          rw [ihm]
          constructor
          · rintro (h2 | ⟨c2, hc2, ul, hul, hu⟩)
            · exact Or.inl h2
            · exact Or.inr ⟨c2, List.mem_cons_of_mem c hc2, ul, hul, hu⟩
          · rintro (h2 | ⟨c2, hc2, ul, hul, hu⟩)
            · exact Or.inl h2
            · rcases List.mem_cons.1 hc2 with h3 | h3
              · subst h3
                rw [hd] at hul
                cases hul
                rw [hnil] at hu
                cases hu
              · exact Or.inr ⟨c2, h3, ul, hul, hu⟩
        · intro kv hkv
          rcases ihkv kv hkv with h2 | ⟨c2, hc2, h3⟩
          · exact Or.inl h2
          · exact Or.inr ⟨c2, List.mem_cons_of_mem c hc2, h3⟩
      · rw [if_neg hemp, pureOk, bindOk] at h
        have hnnil : ulist ≠ [] := fun hn => hemp (by simp [hn])
        obtain ⟨ihm, ihkv⟩ := ih (dictInsert st.1 c.id ulist, st.2 ++ ulist) out h
        constructor
        · intro u
          rw [ihm]
          simp only [List.mem_append]
          constructor
          · rintro ((h2 | h2) | ⟨c2, hc2, ul, hul, hu⟩)
            · exact Or.inl h2
            · exact Or.inr ⟨c, List.mem_cons_self c cs2, ulist, hd, h2⟩
            · exact Or.inr ⟨c2, List.mem_cons_of_mem c hc2, ul, hul, hu⟩
          · rintro (h2 | ⟨c2, hc2, ul, hul, hu⟩)
            · exact Or.inl (Or.inl h2)
            · rcases List.mem_cons.1 hc2 with h3 | h3
              · subst h3
                rw [hd] at hul
                cases hul
                exact Or.inl (Or.inr hu)
              · exact Or.inr ⟨c2, h3, ul, hul, hu⟩
        · intro kv hkv
          rcases ihkv kv hkv with h2 | ⟨c2, hc2, h3⟩
          · rcases dictInsert_mem st.1 c.id ulist kv h2 with h3 | h3
            · exact Or.inl h3
            · refine Or.inr ⟨c, List.mem_cons_self c cs2, ?_, ?_, ?_⟩
              · rw [h3]
              · rw [h3]; exact hd
              · rw [h3]; exact hnnil
          · exact Or.inr ⟨c2, List.mem_cons_of_mem c hc2, h3⟩

-- ---------------------------------------------------------------- claim C7

/-- The comment whose author's avatar URL also occurs as an image link in
its body, the fetch oracle that answers every GET with a PNG, and the URL
itself. -/
def urlC7 : String := "http://x/a.png"

def cC7 : Comment :=
  ⟨1, "<a href=\"http://x/a.png\">p</a>", "",
   ⟨9, "", "", "http://x/a.png", false, false, ""⟩, 0, 5, false, false, 0, 0,
   .list [], 0, 0⟩

def fetchC7 : String → Nat → Except Unit HttpResp :=
  fun _ _ => .ok ⟨200, some "image/png", [1]⟩

/-- C7 counterexample: the avatar pass and the linked-image pass each keep
their *own* cache, so a URL appearing both as an avatar and as a linked
image is resolved once per pass — two `url_to_data_uri` invocations, each
issuing one (successful) GET, i.e. two GETs for the same URL in one run,
not the single GET the claim promises for the whole run. -/
theorem cross_pass_double_fetch_counterexample :
    (embedAvatars fetchC7 [cC7]).2 = [urlC7] ∧
    embedLinkedImages fetchC7 [cC7] =
      .ok ([(1, [(urlC7, "data:image/png;base64,AQ==")])], [urlC7]) ∧
    (urlToDataUri (fetchC7 urlC7) 3).gets = 1 := ⟨rfl, rfl, rfl⟩

/-- C7 amended: binary fetching is memoized by exact URL string *per
embedding pass*: within the avatar pass `url_to_data_uri` is invoked
exactly once per distinct non-empty avatar URL (the fetch log is
duplicate-free and contains exactly those URLs), and within the
linked-image pass exactly once per distinct discovered candidate URL; but
the two passes do not share a cache, so a URL occurring in both passes is
fetched once per pass (see the counterexample). -/
theorem binary_fetch_memoized_per_pass :
    (∀ (fetch : String → Nat → Except Unit HttpResp) (comments : List Comment),
      (embedAvatars fetch comments).2.Nodup ∧
      ∀ u, u ∈ (embedAvatars fetch comments).2 ↔
        (∃ c ∈ comments, c.user.ava = u) ∧ u ≠ "") ∧
    (∀ (fetch : String → Nat → Except Unit HttpResp) (comments : List Comment) m log,
      embedLinkedImages fetch comments = .ok (m, log) →
      log.Nodup ∧
      ∀ u, u ∈ log ↔ ∃ c ∈ comments, ∃ ul, discoverImageLinks c = .ok ul ∧ u ∈ ul) := by
  constructor
  · intro fetch comments
    have he : (embedAvatars fetch comments).2 = avatarUrls comments := rfl
    rw [he]
    refine ⟨nodup_dedupFirst _, ?_⟩
    intro u
    unfold avatarUrls
    rw [mem_dedupFirst]
    constructor
    · intro hm
      obtain ⟨c, hc, hif⟩ := List.mem_filterMap.1 hm
      by_cases ha : c.user.ava = ""
      · rw [if_neg (by simp [ha])] at hif; cases hif
      · rw [if_pos ha] at hif
        cases hif
        exact ⟨⟨c, hc, rfl⟩, ha⟩
    · rintro ⟨⟨c, hc, hava⟩, hne⟩
      refine List.mem_filterMap.2 ⟨c, hc, ?_⟩
      rw [if_pos (by rw [hava]; exact hne), hava]
  · intro fetch comments m log h
    cases hf : comments.foldlM pcuStep ([], []) with
    | error e => simp only [embedLinkedImages, hf, bindErr] at h; cases h
    | ok st =>
      obtain ⟨pcu, allRaw⟩ := st
      simp only [embedLinkedImages, hf, bindOk, pureOk] at h
      cases h
      obtain ⟨hm, _⟩ := pcuFold_spec comments ([], []) (pcu, allRaw) hf
      refine ⟨nodup_dedupFirst _, ?_⟩
      intro u
      rw [mem_dedupFirst]
      rw [hm u]
      simp

/-- Witness for C7's amended theorem at the cross-pass comment `cC7`. -/
theorem binary_fetch_memoized_per_pass_witness :
    (embedAvatars fetchC7 [cC7]).2.Nodup ∧
    ([urlC7].Nodup ∧ ∀ u, u ∈ [urlC7] ↔
      ∃ c ∈ [cC7], ∃ ul, discoverImageLinks c = .ok ul ∧ u ∈ ul) :=
  ⟨(binary_fetch_memoized_per_pass.1 fetchC7 [cC7]).1,
   binary_fetch_memoized_per_pass.2 fetchC7 [cC7]
     [(1, [(urlC7, "data:image/png;base64,AQ==")])] [urlC7] rfl⟩

-- ---------------------------------------------------------------- sorted-output lemmas

theorem discover_shape (c : Comment) (ul : List String)
    (h : discoverImageLinks c = .ok ul) :
    ∃ au, richUrls c = .ok au ∧
      ul = sortStrings (dedupFirst
        ((hrefFindall c.text_html).filter looksLikeImage ++
         (plainUrlFindall c.text_html).filter looksLikeImage ++ au)) := by
  cases hr : richUrls c with
  | error e => simp only [discoverImageLinks, hr, bindErr] at h; cases h
  | ok au =>
    simp only [discoverImageLinks, hr, bindOk, pureOk] at h
    cases h
    exact ⟨au, rfl, rfl⟩

theorem strLe_total : ∀ as bs : List Char, strLe as bs = true ∨ strLe bs as = true := by
  intro as
  induction as with
  | nil => intro bs; exact Or.inl rfl
  | cons a as2 ih =>
    intro bs
    cases bs with
    | nil => exact Or.inr rfl
    | cons b bs2 =>
      by_cases h1 : a.toNat < b.toNat
      · exact Or.inl (by simp [strLe, h1])
      · by_cases h2 : b.toNat < a.toNat
        · exact Or.inr (by simp [strLe, h2])
        · rcases ih bs2 with h | h
          · exact Or.inl (by simp [strLe, h1, h2, h])
          · exact Or.inr (by simp [strLe, h1, h2, h])

theorem strLe_trans : ∀ as bs cs : List Char,
    strLe as bs = true → strLe bs cs = true → strLe as cs = true := by
  intro as
  induction as with
  | nil => intro bs cs h1 h2; rfl
  | cons a as2 ih =>
    intro bs cs h1 h2
    cases bs with
    | nil => simp [strLe] at h1
    | cons b bs2 =>
      cases cs with
      | nil => simp [strLe] at h2
      | cons c cs2 =>
        simp only [strLe] at h1 h2 ⊢
        by_cases hab : a.toNat < b.toNat
        · rw [if_pos hab] at h1
          by_cases hbc : b.toNat < c.toNat
          · rw [if_pos (by omega : a.toNat < c.toNat)]
          · rw [if_neg hbc] at h2
            by_cases hcb : c.toNat < b.toNat
            · rw [if_pos hcb] at h2; cases h2
            · rw [if_pos (by omega : a.toNat < c.toNat)]
        · rw [if_neg hab] at h1
          by_cases hba : b.toNat < a.toNat
          · rw [if_pos hba] at h1; cases h1
          · rw [if_neg hba] at h1
            by_cases hbc : b.toNat < c.toNat
            · rw [if_pos hbc] at h2
              rw [if_pos (by omega : a.toNat < c.toNat)]
            · rw [if_neg hbc] at h2
              by_cases hcb : c.toNat < b.toNat
              · rw [if_pos hcb] at h2; cases h2
              · rw [if_neg hcb] at h2
                rw [if_neg (by omega : ¬a.toNat < c.toNat),
                    if_neg (by omega : ¬c.toNat < a.toNat)]
                exact ih bs2 cs2 h1 h2

theorem sortStrings_sorted (l : List String) :
    List.Sorted (fun a b : String => strLe a.data b.data = true) (sortStrings l) := by
  haveI : IsTotal String (fun a b => strLe a.data b.data = true) :=
    ⟨fun a b => strLe_total _ _⟩
  haveI : IsTrans String (fun a b => strLe a.data b.data = true) :=
    ⟨fun a b c => strLe_trans _ _ _⟩
  exact List.sorted_insertionSort _ l

theorem sortStrings_perm (l : List String) : List.Perm (sortStrings l) l :=
  List.perm_insertionSort _ l

theorem discover_pairwise_lt (c : Comment) (ul : List String)
    (h : discoverImageLinks c = .ok ul) :
    ul.Pairwise (fun a b : String => strLe a.data b.data = true ∧ a ≠ b) := by
  obtain ⟨au, _, rfl⟩ := discover_shape c ul h
  have hnd : (sortStrings (dedupFirst
      ((hrefFindall c.text_html).filter looksLikeImage ++
       (plainUrlFindall c.text_html).filter looksLikeImage ++ au))).Nodup :=
    ((sortStrings_perm _).nodup_iff).2 (nodup_dedupFirst _)
  exact List.Pairwise.and (sortStrings_sorted _) hnd

theorem filterMap_fst_sublist {β : Type} (f : String → Option (String × β))
    (hf : ∀ u x, f u = some x → x.1 = u) :
    ∀ l : List String, List.Sublist ((l.filterMap f).map Prod.fst) l := by
  intro l
  induction l with
  | nil => simp
  | cons u us ih =>
    simp only [List.filterMap_cons]
    cases hfu : f u with
    | none => exact ih.cons u
    | some x =>
      simp only [List.map_cons]
      rw [hf u x hfu]
      exact ih.cons₂ u

theorem lookup_map_pair_eq {β : Type} (g : String → β) :
    ∀ (l : List String) (u : String) (v : β),
      (l.map (fun x => (x, g x))).lookup u = some v → v = g u := by
  intro l
  induction l with
  | nil => intro u v h; simp [List.lookup] at h
  | cons x xs ih =>
    intro u v h
    simp only [List.map_cons, List.lookup_cons] at h
    cases he : (u == x) with
    | true =>
      rw [he] at h
      cases h
      rw [eq_of_beq he]
    | false =>
      rw [he] at h
      exact ih u v h

theorem itemsFor_mem (cache : List (String × Option String)) (ulist : List String)
    (p : String × String) (h : p ∈ itemsFor cache ulist) :
    p.1 ∈ ulist ∧ cache.lookup p.1 = some (some p.2) ∧ p.2 ≠ "" := by
  obtain ⟨u, hu, hfu⟩ := List.mem_filterMap.1 h
  cases hl : cache.lookup u with
  | none => rw [hl] at hfu; cases hfu
  | some o =>
    cases o with
    | none => rw [hl] at hfu; cases hfu
    | some d =>
      rw [hl] at hfu
      have hfu2 : (if d = "" then none else some (u, d)) = some p := hfu
      by_cases hd : d = ""
      · rw [if_pos hd] at hfu2; cases hfu2
      · rw [if_neg hd] at hfu2
        cases hfu2
        exact ⟨hu, hl, hd⟩

theorem byCommentFold_mem (cache : List (String × Option String)) :
    ∀ (pcu : List (Int × List String)) (acc : List (Int × List (String × String)))
      (e : Int × List (String × String)),
      e ∈ pcu.foldl (byCommentStep cache) acc →
      e ∈ acc ∨ ∃ kv ∈ pcu, e = (kv.1, itemsFor cache kv.2) ∧
        itemsFor cache kv.2 ≠ [] := by
  intro pcu
  induction pcu with
  | nil => intro acc e h; exact Or.inl h
  | cons kv kvs ih =>
    intro acc e h
    simp only [List.foldl_cons] at h
    by_cases hemp : (itemsFor cache kv.2).isEmpty = true
    · unfold byCommentStep at h
      rw [if_pos hemp] at h
      rcases ih acc e h with h2 | ⟨kv2, hkv2, h3⟩
      · exact Or.inl h2
      · exact Or.inr ⟨kv2, List.mem_cons_of_mem kv hkv2, h3⟩
    · unfold byCommentStep at h
      rw [if_neg hemp] at h
      rcases ih (acc ++ [(kv.1, itemsFor cache kv.2)]) e h with h2 | ⟨kv2, hkv2, h3⟩
      · rcases List.mem_append.1 h2 with h3 | h3
        · exact Or.inl h3
        · refine Or.inr ⟨kv, List.mem_cons_self kv kvs, List.mem_singleton.1 h3, ?_⟩
          exact fun hn => hemp (by simp [hn])
      · exact Or.inr ⟨kv2, List.mem_cons_of_mem kv hkv2, h3⟩

-- ---------------------------------------------------------------- claim C10

/-- C10: `discover_image_links` returns a strictly lexicographically
sorted (hence duplicate-free, not appearance-ordered) list — the union of
the image-looking href targets, bare URLs and richpreview attachment URLs
— and every entry of the map `embed_linked_images` returns is a nonempty
list of `(URL, data URI)` pairs whose URLs are strictly sorted (duplicate
free) and each of whose data URIs is exactly the resolution
`url_to_data_uri` produced for that URL, so a comment id is present only
when at least one of its candidates resolved. -/
theorem embedded_images_sorted_dedup :
    (∀ (c : Comment) (ul : List String), discoverImageLinks c = .ok ul →
      ul.Pairwise (fun a b : String => strLe a.data b.data = true ∧ a ≠ b) ∧
      (∀ u, u ∈ ul ↔
        (u ∈ (hrefFindall c.text_html).filter looksLikeImage ∨
         u ∈ (plainUrlFindall c.text_html).filter looksLikeImage ∨
         ∃ au, richUrls c = .ok au ∧ u ∈ au))) ∧
    (∀ (fetch : String → Nat → Except Unit HttpResp) (comments : List Comment) m log,
      embedLinkedImages fetch comments = .ok (m, log) →
      ∀ cid items, (cid, items) ∈ m →
        items ≠ [] ∧
        (items.map Prod.fst).Pairwise (fun a b : String => strLe a.data b.data = true ∧ a ≠ b) ∧
        ∀ p ∈ items, (urlToDataUri (fetch p.1) 3).result = some p.2 ∧ p.2 ≠ "") := by
  constructor
  · intro c ul h
    refine ⟨discover_pairwise_lt c ul h, ?_⟩
    obtain ⟨au, hau, rfl⟩ := discover_shape c ul h
    intro u
    rw [(sortStrings_perm _).mem_iff, mem_dedupFirst]
    simp only [List.mem_append]
    constructor
    · rintro ((h2 | h2) | h2)
      · exact Or.inl h2
      · exact Or.inr (Or.inl h2)
      · exact Or.inr (Or.inr ⟨au, hau, h2⟩)
    · rintro (h2 | h2 | ⟨au2, hau2, h2⟩)
      · exact Or.inl (Or.inl h2)
      · exact Or.inl (Or.inr h2)
      · rw [hau] at hau2
        cases hau2
        exact Or.inr h2
  · intro fetch comments m log h cid items hmem
    cases hf : comments.foldlM pcuStep ([], []) with
    | error e => simp only [embedLinkedImages, hf, bindErr] at h; cases h
    | ok st =>
      obtain ⟨pcu, allRaw⟩ := st
      simp only [embedLinkedImages, hf, bindOk, pureOk] at h
      cases h
      obtain ⟨_, hkv⟩ := pcuFold_spec comments ([], []) (pcu, allRaw) hf
      rcases byCommentFold_mem _ pcu [] (cid, items) hmem with h2 | ⟨kv, hkvm, heq, hne⟩
      · cases h2
      · have hitems : items = itemsFor
            ((dedupFirst allRaw).map
              (fun u => (u, (urlToDataUri (fetch u) 3).result))) kv.2 :=
          congrArg Prod.snd heq
        rcases hkv kv hkvm with h3 | ⟨c, hc, _, hdisc, _⟩
        · cases h3
        · have hpw : kv.2.Pairwise (fun a b : String => strLe a.data b.data = true ∧ a ≠ b) :=
            discover_pairwise_lt c kv.2 hdisc
          refine ⟨by rw [hitems]; exact hne, ?_, ?_⟩
          · rw [hitems]
            refine List.Pairwise.sublist ?_ hpw
            refine filterMap_fst_sublist _ ?_ kv.2
            intro u x hfu
            cases hl : List.lookup u ((dedupFirst allRaw).map
                (fun u => (u, (urlToDataUri (fetch u) 3).result))) with
            | none => rw [hl] at hfu; cases hfu
            | some o =>
              cases o with
              | none => rw [hl] at hfu; cases hfu
              | some d =>
                rw [hl] at hfu
                have hfu2 : (if d = "" then none else some (u, d)) = some x := hfu
                by_cases hd : d = ""
                · rw [if_pos hd] at hfu2; cases hfu2
                · rw [if_neg hd] at hfu2; cases hfu2; rfl
          · intro p hp
            rw [hitems] at hp
            obtain ⟨_, hl, hne2⟩ := itemsFor_mem _ _ p hp
            have := lookup_map_pair_eq
              (fun u => (urlToDataUri (fetch u) 3).result) (dedupFirst allRaw)
              p.1 (some p.2) hl
            exact ⟨this.symm, hne2⟩

/-- Witness for C10 at a comment whose body links two images in
non-lexicographic appearance order; the discovered list comes out sorted
and both entries resolve. -/
def cC10 : Comment :=
  ⟨1, "<a href=\"http://x/b.png\">b</a> <a href=\"http://x/a.png\">a</a>", "",
   ⟨9, "", "", "", false, false, ""⟩, 0, 5, false, false, 0, 0, .list [], 0, 0⟩

def itemsC10 : List (String × String) :=
  [("http://x/a.png", "data:image/png;base64,AQ=="),
   ("http://x/b.png", "data:image/png;base64,AQ==")]

theorem embedded_images_sorted_dedup_witness :
    (["http://x/a.png", "http://x/b.png"].Pairwise (fun a b : String => strLe a.data b.data = true ∧ a ≠ b) ∧
      (∀ u, u ∈ ["http://x/a.png", "http://x/b.png"] ↔
        (u ∈ (hrefFindall cC10.text_html).filter looksLikeImage ∨
         u ∈ (plainUrlFindall cC10.text_html).filter looksLikeImage ∨
         ∃ au, richUrls cC10 = .ok au ∧ u ∈ au))) ∧
    (itemsC10 ≠ [] ∧
      (itemsC10.map Prod.fst).Pairwise (fun a b : String => strLe a.data b.data = true ∧ a ≠ b) ∧
      ∀ p ∈ itemsC10, (urlToDataUri (fetchC7 p.1) 3).result = some p.2 ∧ p.2 ≠ "") :=
  ⟨embedded_images_sorted_dedup.1 cC10 ["http://x/a.png", "http://x/b.png"] (by rfl),
   embedded_images_sorted_dedup.2 fetchC7 [cC10] [(1, itemsC10)]
     ["http://x/a.png", "http://x/b.png"] (by rfl) 1 itemsC10
     (List.mem_singleton.2 rfl)⟩

-- ---------------------------------------------------------------- thread-completion lemmas

theorem buildBrcAux :
    ∀ (cs : List Comment) (f : Int → Nat) (rid : Int), rid ≠ 0 →
      cs.foldl
        (fun brc c =>
          if c.answer_comment_root_id != 0 then
            fun k => if k = c.answer_comment_root_id then brc c.answer_comment_root_id + 1
                     else brc k
          else brc) f rid = f rid + countRoot cs rid := by
  intro cs
  induction cs with
  | nil => intro f rid h; simp [countRoot]
  | cons c cs2 ih =>
    intro f rid h
    simp only [List.foldl_cons]
    by_cases hr0 : c.answer_comment_root_id = 0
    · rw [if_neg (by simp [hr0])]
      rw [ih f rid h]
      have : countRoot (c :: cs2) rid = countRoot cs2 rid := by
        unfold countRoot
        rw [List.filter_cons, if_neg (by simp [hr0]; omega)]
      rw [this]
    · rw [if_pos (by simp [hr0])]
      by_cases he : rid = c.answer_comment_root_id
      · rw [ih _ rid h]
        have h1 : (if rid = c.answer_comment_root_id
            then f c.answer_comment_root_id + 1 else f rid) = f rid + 1 := by
          rw [if_pos he, he]
        rw [h1]
        have h2 : countRoot (c :: cs2) rid = countRoot cs2 rid + 1 := by
          unfold countRoot
          rw [List.filter_cons, if_pos (by simp [he.symm])]
          simp [List.length_cons]
        rw [h2]
        omega
      · rw [ih _ rid h]
        have h1 : (if rid = c.answer_comment_root_id
            then f c.answer_comment_root_id + 1 else f rid) = f rid := if_neg he
        rw [h1]
        have h2 : countRoot (c :: cs2) rid = countRoot cs2 rid := by
          unfold countRoot
          rw [List.filter_cons, if_neg (by simp; intro hx; exact absurd hx.symm he)]
        rw [h2]

theorem buildBrc_get (comments : List Comment) (rid : Int) (h : rid ≠ 0) :
    buildBrc comments rid = countRoot comments rid := by
  unfold buildBrc
  rw [buildBrcAux comments _ rid h]
  omega

theorem insertAll_strong (P : Comment → Prop) :
    ∀ (raws : List JVal) (seen : List Int) (comments : List Comment) (added : Nat),
      (∀ raw ∈ raws, ∃ cm, parseComment raw = .ok cm ∧ P cm) →
      (∀ a, a ∈ seen ↔ a ∈ comments.map (fun c => c.id)) →
      ∃ seen2 comments2 added2,
        insertAll (seen, comments, added) raws = .ok (seen2, comments2, added2) ∧
        (∃ ext, comments2 = comments ++ ext ∧
          ∀ cm ∈ ext, P cm ∧ cm.id ∉ comments.map (fun c => c.id)) ∧
        (∀ a, a ∈ seen2 ↔ a ∈ comments2.map (fun c => c.id)) ∧
        ((comments.map (fun c => c.id)).Nodup → (comments2.map (fun c => c.id)).Nodup) := by
  intro raws
  induction raws with
  | nil =>
    intro seen comments added hp hsync
    refine ⟨seen, comments, added, ?_, ⟨[], by simp, by simp⟩, hsync, fun h => h⟩
    simp [insertAll, List.foldlM_nil, pureOk]
  | cons raw rest ih =>
    intro seen comments added hp hsync
    obtain ⟨cm, hcm, hPcm⟩ := hp raw (List.mem_cons_self raw rest)
    have hrest : ∀ r ∈ rest, ∃ cm2, parseComment r = .ok cm2 ∧ P cm2 :=
      fun r hr => hp r (List.mem_cons_of_mem raw hr)
    by_cases hc : (seen.contains cm.id) = true
    · obtain ⟨seen2, comments2, added2, hins, hext, hsync2, hnd⟩ :=
        ih seen comments added hrest hsync
      refine ⟨seen2, comments2, added2, ?_, hext, hsync2, hnd⟩
      simp only [insertAll, List.foldlM_cons, insertOne, hcm, bindOk]
      rw [if_pos hc, pureOk, bindOk]
      exact hins
    · have hnotmem : cm.id ∉ comments.map (fun c => c.id) := by
        intro hm
        exact hc (List.elem_iff.2 ((hsync cm.id).2 hm))
      have hsync2 : ∀ a, a ∈ cm.id :: seen ↔
          a ∈ (comments ++ [cm]).map (fun c => c.id) := by
        intro a
        simp only [List.mem_cons, List.map_append, List.mem_append, List.map_cons,
          List.map_nil, List.mem_singleton]
        rw [hsync a]
        tauto
      obtain ⟨seen2, comments2, added2, hins, ⟨ext, hext, hPext⟩, hsync3, hnd⟩ :=
        ih (cm.id :: seen) (comments ++ [cm]) (added + 1) hrest hsync2
      refine ⟨seen2, comments2, added2, ?_, ⟨cm :: ext, ?_, ?_⟩, hsync3, ?_⟩
      · simp only [insertAll, List.foldlM_cons, insertOne, hcm, bindOk]
        rw [if_neg hc, pureOk, bindOk]
        exact hins
      · rw [hext]; simp
      · intro cm2 hm2
        rcases List.mem_cons.1 hm2 with h2 | h2
        · subst h2; exact ⟨hPcm, hnotmem⟩
        · obtain ⟨hP2, hni⟩ := hPext cm2 h2
          refine ⟨hP2, fun hmm => hni ?_⟩
          simp only [List.map_append, List.mem_append]
          exact Or.inl hmm
      · intro hnd0
        refine hnd ?_
        simp only [List.map_append, List.map_cons, List.map_nil]
        rw [List.nodup_append]
        exact ⟨hnd0, List.nodup_singleton _, by simpa using hnotmem⟩

theorem threadFold_spec (api : Api) (comments0 : List Comment)
    (hids0 : ∀ c ∈ comments0, c.id ≠ 0) :
    ∀ (rem : List Comment) (processed : List Int) (st : TState),
      (∀ r ∈ rem, r ∈ rootsOf comments0) →
      (rem.map (fun r => r.id)).Nodup →
      (∀ r ∈ rem, r.id ∉ processed) →
      (∀ r ∈ rem, scopedThreadResp (api.thread r.id) r.id = true) →
      (∃ ext, st.comments = comments0 ++ ext ∧
        ∀ cm ∈ ext, cm.answer_comment_root_id ∈ processed) →
      (∀ a, a ∈ st.seen ↔ a ∈ st.comments.map (fun c => c.id)) →
      (st.comments.map (fun c => c.id)).Nodup →
      (∀ rid, rid ∉ processed → st.brc rid = buildBrc comments0 rid) →
      ∃ st2, rem.foldlM (processRoot api) st = .ok st2 ∧
        st2.calls = st.calls ++
          (rem.filter (fun r =>
            decide ((countRoot comments0 r.id : Int) < r.reply_expected))).map
            (fun r => r.id) ∧
        ∃ ext2, st2.comments = st.comments ++ ext2 ∧
          ∀ cm ∈ ext2, cm.id ∉ st.comments.map (fun c => c.id) := by
  intro rem
  induction rem with
  | nil =>
    intro processed st _ _ _ _ hinv hsync hnd hbrc
    exact ⟨st, by simp [List.foldlM_nil, pureOk], by simp, ⟨[], by simp, by simp⟩⟩
  | cons r rest ih =>
    intro processed st hsub hndrem hnp hsc hinv hsync hnd hbrc
    have hrroot : r ∈ rootsOf comments0 := hsub r (List.mem_cons_self r rest)
    have hrmem : r ∈ comments0 := (List.mem_filter.1 hrroot).1
    have hrid0 : r.id ≠ 0 := hids0 r hrmem
    have hrnp : r.id ∉ processed := hnp r (List.mem_cons_self r rest)
    have hbrcr : st.brc r.id = countRoot comments0 r.id := by
      rw [hbrc r.id hrnp, buildBrc_get comments0 r.id hrid0]
    have hndtail : (rest.map (fun r => r.id)).Nodup := (List.nodup_cons.1 hndrem).2
    have hrid963 : r.id ∉ rest.map (fun r => r.id) := (List.nodup_cons.1 hndrem).1
    have hnpTail : ∀ x ∈ rest, x.id ∉ processed ++ [r.id] := by
      intro x hx hmem
      rcases List.mem_append.1 hmem with h2 | h2
      · exact hnp x (List.mem_cons_of_mem r hx) h2
      · exact hrid963 (List.mem_map.2 ⟨x, hx, List.mem_singleton.1 h2⟩)
    by_cases hcond : (countRoot comments0 r.id : Int) < r.reply_expected
    · -- a thread call is issued for r
      have hcond2 : (st.brc r.id : Int) < r.reply_expected := by
        rw [hbrcr]; exact hcond
      have hscr := hsc r (List.mem_cons_self r rest)
      cases ht : api.thread r.id with
      | error e =>
        rw [ht] at hscr
        cases e with
        | transport =>
          have hstep : processRoot api st r =
              .ok { st with calls := st.calls ++ [r.id] } := by
            unfold processRoot
            rw [if_pos hcond2, ht]
            rfl
          obtain ⟨st2, hfold, hcalls, hext2⟩ :=
            ih (processed ++ [r.id]) { st with calls := st.calls ++ [r.id] }
              (fun x hx => hsub x (List.mem_cons_of_mem r hx))
              hndtail hnpTail
              (fun x hx => hsc x (List.mem_cons_of_mem r hx))
              (by
                obtain ⟨ext, he1, he2⟩ := hinv
                exact ⟨ext, he1, fun cm hcm => List.mem_append_left _ (he2 cm hcm)⟩)
              hsync hnd
              (fun rid hrid =>
                hbrc rid (fun hm => hrid (List.mem_append_left _ hm)))
          refine ⟨st2, ?_, ?_, hext2⟩
          · simp only [List.foldlM_cons, hstep, bindOk]; exact hfold
          · rw [hcalls, List.filter_cons, if_pos (by simp [hcond])]
            simp [List.append_assoc]
        | keyErr => simp only [scopedThreadResp] at hscr; cases hscr
        | valueErr => simp only [scopedThreadResp] at hscr; cases hscr
        | attrErr => simp only [scopedThreadResp] at hscr; cases hscr
        | typeErr => simp only [scopedThreadResp] at hscr; cases hscr
      | ok tdata =>
        rw [ht] at hscr
        simp only [scopedThreadResp] at hscr
        cases he : extractPageComments tdata with
        | error e2 =>
          rw [he] at hscr
          have hscr2 : (false : Bool) = true := hscr
          cases hscr2
        | ok raws =>
          rw [he] at hscr
          have hall : raws.all (fun raw =>
              match parseComment raw with
              | .ok cm => cm.answer_comment_root_id == r.id
              | .error _ => false) = true := hscr
          have hparse : ∀ raw ∈ raws, ∃ cm, parseComment raw = .ok cm ∧
              cm.answer_comment_root_id = r.id := by
            intro raw hraw
            have h2 := List.all_eq_true.1 hall raw hraw
            cases hpc : parseComment raw with
            | error e3 =>
              rw [hpc] at h2
              have h3 : (false : Bool) = true := h2
              cases h3
            | ok cm =>
              rw [hpc] at h2
              have h3 : (cm.answer_comment_root_id == r.id) = true := h2
              exact ⟨cm, rfl, eq_of_beq h3⟩
          obtain ⟨seen2, comments2, added2, hins, ⟨ext1, hext1, hPext1⟩, hsync2, hndp⟩ :=
            insertAll_strong (fun cm => cm.answer_comment_root_id = r.id) raws st.seen
              st.comments 0 hparse hsync
          have hstep : processRoot api st r = .ok ⟨seen2, comments2,
              (if added2 ≠ 0
                then (fun k => if k = r.id then countRoot comments2 r.id else st.brc k)
                else st.brc),
              st.calls ++ [r.id]⟩ := by
            unfold processRoot
            rw [if_pos hcond2, ht]
            simp only [processRootCall]
            rw [he, bindOk, hins, bindOk]
            rfl
          have hinvN : ∃ ext, comments2 = comments0 ++ ext ∧
              ∀ cm ∈ ext, cm.answer_comment_root_id ∈ processed ++ [r.id] := by
            obtain ⟨ext0, hi1, hi2⟩ := hinv
            refine ⟨ext0 ++ ext1, ?_, ?_⟩
            · rw [hext1, hi1, List.append_assoc]
            · intro cm hcm
              rcases List.mem_append.1 hcm with h2 | h2
              · exact List.mem_append_left _ (hi2 cm h2)
              · refine List.mem_append_right _ (List.mem_singleton.2 ?_)
                exact (hPext1 cm h2).1
          have hbrcN : ∀ rid, rid ∉ processed ++ [r.id] →
              (if added2 ≠ 0
                then (fun k => if k = r.id then countRoot comments2 r.id else st.brc k)
                else st.brc) rid = buildBrc comments0 rid := by
            intro rid hrid
            have h1 : rid ∉ processed := fun hm => hrid (List.mem_append_left _ hm)
            have h2 : rid ≠ r.id := fun hm =>
              hrid (List.mem_append_right _ (List.mem_singleton.2 hm))
            by_cases ha : added2 ≠ 0
            · rw [if_pos ha]
              show (if rid = r.id then countRoot comments2 r.id else st.brc rid) =
                buildBrc comments0 rid
              rw [if_neg h2]
              exact hbrc rid h1
            · rw [if_neg ha]
              exact hbrc rid h1
          obtain ⟨st2, hfold, hcalls, hext2⟩ :=
            ih (processed ++ [r.id])
              ⟨seen2, comments2,
                (if added2 ≠ 0
                  then (fun k => if k = r.id then countRoot comments2 r.id else st.brc k)
                  else st.brc),
                st.calls ++ [r.id]⟩
              (fun x hx => hsub x (List.mem_cons_of_mem r hx))
              hndtail hnpTail
              (fun x hx => hsc x (List.mem_cons_of_mem r hx))
              hinvN hsync2 (hndp hnd) hbrcN
          refine ⟨st2, ?_, ?_, ?_⟩
          · simp only [List.foldlM_cons, hstep, bindOk]; exact hfold
          · have hcallsN : st2.calls = (st.calls ++ [r.id]) ++
                (rest.filter (fun r =>
                  decide ((countRoot comments0 r.id : Int) < r.reply_expected))).map
                  (fun r => r.id) := hcalls
            rw [hcallsN, List.filter_cons, if_pos (by simp [hcond])]
            simp [List.append_assoc]
          · obtain ⟨ext2, hx1, hx2⟩ := hext2
            refine ⟨ext1 ++ ext2, ?_, ?_⟩
            · have hcN : (⟨seen2, comments2,
                  (if added2 ≠ 0
                    then (fun k => if k = r.id then countRoot comments2 r.id
                          else st.brc k)
                    else st.brc),
                  st.calls ++ [r.id]⟩ : TState).comments = st.comments ++ ext1 := hext1
              rw [hx1, hcN, List.append_assoc]
            · intro cm hcm
              rcases List.mem_append.1 hcm with h2 | h2
              · exact (hPext1 cm h2).2
              · intro hmm
                apply hx2 cm h2
                show cm.id ∈ comments2.map (fun c => c.id)
                rw [hext1]
                simp only [List.map_append, List.mem_append]
                exact Or.inl hmm
    · -- no call for r
      have hstep : processRoot api st r = .ok st := by
        unfold processRoot
        rw [if_neg (by rw [hbrcr]; exact hcond)]
        rfl
      obtain ⟨st2, hfold, hcalls, hext2⟩ :=
        ih (processed ++ [r.id]) st
          (fun x hx => hsub x (List.mem_cons_of_mem r hx))
          hndtail hnpTail
          (fun x hx => hsc x (List.mem_cons_of_mem r hx))
          (by
            obtain ⟨ext, he1, he2⟩ := hinv
            exact ⟨ext, he1, fun cm hcm => List.mem_append_left _ (he2 cm hcm)⟩)
          hsync hnd
          (fun rid hrid => hbrc rid (fun hm => hrid (List.mem_append_left _ hm)))
      refine ⟨st2, ?_, ?_, hext2⟩
      · simp only [List.foldlM_cons, hstep, bindOk]; exact hfold
      · rw [hcalls, List.filter_cons, if_neg (by simp [hcond])]

-- ---------------------------------------------------------------- claim C5

/-- C5: the thread-completion phase issues exactly one thread call per
root `r` if and only if `r`'s recorded expected-reply-count exceeds the
number of collected comments whose root id is `r.id` (the call log equals
the roots that satisfy the inequality, is duplicate-free, and membership
is equivalent to the inequality), and its effect is strictly additive:
the previously collected comments survive unchanged as a prefix and every
merged comment has a not-yet-seen id.  Hypotheses: ids are nonzero and
duplicate-free, the seen-set mirrors the collected ids (all guaranteed by
the collection phases), and each thread response is scoped to its root
(either a swallowed transport failure or a payload of parseable records
carrying that root id — the shape the thread endpoint contracts to
return). -/
theorem thread_completion_contract (api : Api) (comments : List Comment)
    (seen : List Int)
    (hids : ∀ c ∈ comments, c.id ≠ 0)
    (hnodup : (comments.map (fun c => c.id)).Nodup)
    (hsync : ∀ a, a ∈ seen ↔ a ∈ comments.map (fun c => c.id))
    (hscoped : ∀ r ∈ rootsOf comments, scopedThreadResp (api.thread r.id) r.id = true) :
    ∃ st2, threadPhase api comments seen = .ok st2 ∧
      st2.calls = ((rootsOf comments).filter (fun r =>
        decide ((countRoot comments r.id : Int) < r.reply_expected))).map
        (fun r => r.id) ∧
      st2.calls.Nodup ∧
      (∀ r ∈ rootsOf comments,
        (r.id ∈ st2.calls ↔ (countRoot comments r.id : Int) < r.reply_expected)) ∧
      ∃ ext, st2.comments = comments ++ ext ∧
        ∀ cm ∈ ext, cm.id ∉ comments.map (fun c => c.id) := by
  have hrootsNd : ((rootsOf comments).map (fun r => r.id)).Nodup :=
    List.Nodup.sublist (List.Sublist.map _ (List.filter_sublist comments)) hnodup
  obtain ⟨st2, hfold, hcalls, hext⟩ :=
    threadFold_spec api comments hids (rootsOf comments) []
      ⟨seen, comments, buildBrc comments, []⟩
      (fun r hr => hr) hrootsNd (fun r _ h => List.not_mem_nil r.id h) hscoped
      ⟨[], by simp, by simp⟩ hsync hnodup (fun rid _ => rfl)
  have hcalls2 : st2.calls = ((rootsOf comments).filter (fun r =>
      decide ((countRoot comments r.id : Int) < r.reply_expected))).map
      (fun r => r.id) := by
    have h0 : st2.calls = [] ++ ((rootsOf comments).filter (fun r =>
        decide ((countRoot comments r.id : Int) < r.reply_expected))).map
        (fun r => r.id) := hcalls
    simpa using h0
  refine ⟨st2, hfold, hcalls2, ?_, ?_, hext⟩
  · rw [hcalls2]
    exact List.Nodup.sublist
      (List.Sublist.map _ (List.filter_sublist (rootsOf comments))) hrootsNd
  · intro r hr
    rw [hcalls2]
    constructor
    · intro hm
      obtain ⟨r2, hr2f, hid⟩ := List.mem_map.1 hm
      have hr2 : r2 ∈ rootsOf comments := (List.mem_filter.1 hr2f).1
      have hcond2 := (List.mem_filter.1 hr2f).2
      have heq : r2 = r := List.inj_on_of_nodup_map hrootsNd hr2 hr hid
      subst heq
      exact of_decide_eq_true hcond2
    · intro hcond
      exact List.mem_map.2 ⟨r, List.mem_filter.2 ⟨hr, by simp [hcond]⟩, rfl⟩

/-- Witness fixtures for C5: two roots (id 1 expecting 2 replies but
holding 1; id 2 expecting 1 reply and holding 1) and a thread endpoint
that answers root 1 with its two replies and everything else with a
transport failure. -/
def cExp (i srt rootid exp : Int) : Comment :=
  ⟨i, "", "", ⟨0, "", "", "", false, false, ""⟩, 0, srt, false, false, 0, rootid,
   .list [], 0, exp⟩

def cmtsC5 : List Comment := [cExp 1 10 0 2, cEx 5 9 1 0, cExp 2 6 0 1, cEx 7 4 2 0]

def threadRespC5 : JVal :=
  .dict [("data", .dict [("comments", .list
    [.dict [("id", .int 5), ("sort", .int 9), ("answer_comment_root_id", .int 1)],
     .dict [("id", .int 6), ("sort", .int 8), ("answer_comment_root_id", .int 1)]])])]

def apiC5 : Api :=
  { first := .ok .null
    page := fun _ => .error .transport
    thread := fun rid => if rid = 1 then .ok threadRespC5 else .error .transport
    fetch := fun _ _ => .error () }

theorem thread_completion_contract_witness :
    ∃ st2, threadPhase apiC5 cmtsC5 (cmtsC5.map (fun c => c.id)) = .ok st2 ∧
      st2.calls = ((rootsOf cmtsC5).filter (fun r =>
        decide ((countRoot cmtsC5 r.id : Int) < r.reply_expected))).map
        (fun r => r.id) ∧
      st2.calls.Nodup ∧
      (∀ r ∈ rootsOf cmtsC5,
        (r.id ∈ st2.calls ↔ (countRoot cmtsC5 r.id : Int) < r.reply_expected)) ∧
      ∃ ext, st2.comments = cmtsC5 ++ ext ∧
        ∀ cm ∈ ext, cm.id ∉ cmtsC5.map (fun c => c.id) :=
  thread_completion_contract apiC5 cmtsC5 (cmtsC5.map (fun c => c.id))
    (by decide) (by decide) (fun a => Iff.rfl) (by decide)
